import Mathlib

/-!
Shallow embedding of the `so2js_gc` incremental tri-color mark-sweep
collector (`src/so2js_gc/src/heap.rs`, `gc_header.rs`, `gray_queue.rs`)
and of the stack-root scope allocator
(`src/so2js/runtime/stack/handle.rs`).

Memory is modelled as a partial map from addresses (`Nat`) to `GcHeader`
records; the all-objects list is threaded through the headers' `next`
fields exactly as in the source, and the sweep cursor walks those `next`
fields.  Fresh addresses are drawn from a monotone counter, which models
the fact that the address of a live object is never reused while it is
live.  The embedder-supplied `GcContext` (`visit_roots` /
`trace_object`) is modelled as a list of root addresses plus a
strong-edge function.  `process_weak_refs` receives the heap by shared
reference in the source (`fn process_weak_refs(&mut self, heap: &Heap)`
in `visitor.rs`), so it cannot change any collector state; it is
therefore the identity on the collector state here (it only clears weak
fields of embedder objects, which are never reported as strong edges).
-/

namespace SO2JS

/-- The three colors of tri-color marking (`gc_header.rs`, `GcColor`). -/
inductive GcColor where
  | White
  | Gray
  | Black
deriving DecidableEq, Repr

/-- GC phase for incremental collection (`gc_header.rs`, `GcPhase`). -/
inductive GcPhase where
  | Idle
  | RootScanning
  | Marking
  | WeakRefProcessing
  | Sweeping
deriving DecidableEq, Repr

/-- Size of `GcHeader` on a 64-bit target: three 8-byte words
(`context_and_color`, `alloc_size`, `next_object`).  `GcHeader::SIZE`. -/
def headerSize : Nat := 24

/-- Number of objects processed per mark step (`DEFAULT_MARK_STEP_SIZE`). -/
def defaultMarkStepSize : Nat := 100

/-- Number of objects processed per sweep step (`DEFAULT_SWEEP_STEP_SIZE`). -/
def defaultSweepStepSize : Nat := 100

/-- Default GC threshold, 1 MiB (`DEFAULT_GC_THRESHOLD`). -/
def defaultGcThreshold : Nat := 1024 * 1024

/-- The GC header placed before every allocation (`gc_header.rs`,
`GcHeader`).  The context back-pointer is not modelled: it never
influences collector behaviour. -/
structure GcHeader where
  color : GcColor
  allocSize : Nat
  next : Option Nat
deriving DecidableEq, Repr

/-- `GcHeader::total_size`: header size plus recorded body size. -/
def GcHeader.totalSize (hd : GcHeader) : Nat := headerSize + hd.allocSize

/-- The object memory: a partial map from addresses to headers. -/
def Mem : Type := Nat → Option GcHeader

/-- Write a fresh header at address `i` (the system allocator returning
a block, followed by `header.write(...)`). -/
def Mem.set (m : Mem) (i : Nat) (hd : GcHeader) : Mem :=
  fun j => if j = i then some hd else m j

/-- Deallocate the block at address `i` (`alloc::alloc::dealloc`). -/
def Mem.del (m : Mem) (i : Nat) : Mem :=
  fun j => if j = i then none else m j

/-- `GcHeader::set_color` performed through a pointer at address `i`. -/
def Mem.setColor (m : Mem) (i : Nat) (c : GcColor) : Mem :=
  fun j => if j = i then (m j).map (fun hd => { hd with color := c }) else m j

/-- `GcHeader::set_next_object` performed through a pointer at `i`. -/
def Mem.setNext (m : Mem) (i : Nat) (t : Option Nat) : Mem :=
  fun j => if j = i then (m j).map (fun hd => { hd with next := t }) else m j

/-- The managed heap (`heap.rs`, `Heap`).  `gray_queue.rs` uses a `Vec`
pushed and popped at the end; it is a `List` here with the top at the
head. -/
structure Heap where
  mem : Mem
  nextAddr : Nat
  allObjects : Option Nat
  bytesAllocated : Nat
  numObjects : Nat
  gcThreshold : Nat
  grayQueue : List Nat
  phase : GcPhase
  sweepPrev : Option Nat
  sweepCurrent : Option Nat
  bytesFreedThisCycle : Nat
  objectsFreedThisCycle : Nat

/-- `Heap::new`. -/
def Heap.new : Heap where
  mem := fun _ => none
  nextAddr := 0
  allObjects := none
  bytesAllocated := 0
  numObjects := 0
  gcThreshold := defaultGcThreshold
  grayQueue := []
  phase := GcPhase.Idle
  sweepPrev := none
  sweepCurrent := none
  bytesFreedThisCycle := 0
  objectsFreedThisCycle := 0

/-- `Heap::gc_in_progress`. -/
def Heap.gcInProgress (h : Heap) : Bool := decide (h.phase ≠ GcPhase.Idle)

/-- `Heap::is_marking`: true in the `RootScanning` and `Marking` phases. -/
def Heap.isMarking (h : Heap) : Bool :=
  decide (h.phase = GcPhase.RootScanning ∨ h.phase = GcPhase.Marking)

/-- `Heap::should_gc`, in the source's operand order. -/
def Heap.shouldGc (h : Heap) : Bool :=
  decide (h.gcThreshold < h.bytesAllocated) && decide (h.phase = GcPhase.Idle)

/-- Color of the header at address `i`, if the address is live. -/
def Heap.colorOf (h : Heap) (i : Nat) : Option GcColor :=
  (h.mem i).map GcHeader.color

/-- The runtime context (`visitor.rs`, trait `GcContext`): root
enumeration and per-object strong-edge enumeration.  `edges i` is the
list of strong pointers `trace_object` reports for the object at `i`. -/
structure GcContext where
  roots : List Nat
  edges : Nat → List Nat

/-- `Heap::mark_gray_raw` (also `Marker::visit_raw`, which performs the
identical white-to-gray test and push): if the target's header is white,
flip it to gray and push it onto the gray queue. -/
def Heap.markGrayRaw (h : Heap) (i : Nat) : Heap :=
  match h.mem i with
  | none => h
  | some hd =>
    if hd.color = GcColor.White then
      { h with mem := h.mem.setColor i GcColor.Gray, grayQueue := i :: h.grayQueue }
    else h

/-- Visit a list of pointers in order with the marker visitor. -/
def Heap.markGrayList (h : Heap) (l : List Nat) : Heap :=
  l.foldl Heap.markGrayRaw h

/-- `Heap::start_gc`: no-op while a collection is in progress, otherwise
reset per-cycle counters, scan roots gray, and enter `Marking`. -/
def Heap.startGc (ctx : GcContext) (h : Heap) : Heap :=
  if h.gcInProgress then h
  else
    let h1 := { h with
      phase := GcPhase.RootScanning
      bytesFreedThisCycle := 0
      objectsFreedThisCycle := 0 }
    let h2 := h1.markGrayList ctx.roots
    { h2 with phase := GcPhase.Marking }

/-- `Heap::mark_step`: pop up to `workLimit` headers off the gray queue,
color each black and trace its strong edges; when the queue empties,
advance to `WeakRefProcessing`. -/
def Heap.markStep (ctx : GcContext) (h : Heap) : Nat → Heap
  | 0 => h
  | workLimit + 1 =>
    match h.grayQueue with
    | [] => { h with phase := GcPhase.WeakRefProcessing }
    | i :: rest =>
      let h1 := { h with grayQueue := rest, mem := h.mem.setColor i GcColor.Black }
      let h2 := h1.markGrayList (ctx.edges i)
      h2.markStep ctx workLimit

/-- `Heap::finish_sweep`: subtract the cycle's frees from the counters,
recompute the threshold, and reset the collection state. -/
def Heap.finishSweep (h : Heap) : Heap :=
  { h with
    bytesAllocated := h.bytesAllocated - h.bytesFreedThisCycle
    numObjects := h.numObjects - h.objectsFreedThisCycle
    gcThreshold := max ((h.bytesAllocated - h.bytesFreedThisCycle) * 2) defaultGcThreshold
    phase := GcPhase.Idle
    sweepPrev := none
    sweepCurrent := none
    bytesFreedThisCycle := 0
    objectsFreedThisCycle := 0 }

/-- `Heap::sweep_step`: advance the sweep cursor over up to `workLimit`
objects; free white objects (unlinking them through `sweep_prev`, or
through the list head when `sweep_prev` is `None`), recolor surviving
objects white.  When the cursor reaches the end, run `finish_sweep`.
The source dereferences the cursor unconditionally; a dangling cursor
(impossible for well-formed heaps) is modelled as a stuck state. -/
def Heap.sweepStep (h : Heap) : Nat → Heap
  | 0 => h
  | workLimit + 1 =>
    match h.sweepCurrent with
    | none => h.finishSweep
    | some cur =>
      match h.mem cur with
      | none => h
      | some hd =>
        if hd.color = GcColor.White then
          let h1 :=
            match h.sweepPrev with
            | some p => { h with mem := h.mem.setNext p hd.next }
            | none => { h with allObjects := hd.next }
          let h2 := { h1 with
            mem := h1.mem.del cur
            bytesFreedThisCycle := h1.bytesFreedThisCycle + hd.totalSize
            objectsFreedThisCycle := h1.objectsFreedThisCycle + 1
            sweepCurrent := hd.next }
          h2.sweepStep workLimit
        else
          let h1 := { h with
            mem := h.mem.setColor cur GcColor.White
            sweepPrev := some cur
            sweepCurrent := hd.next }
          h1.sweepStep workLimit

/-- The heap after one sweep iteration keeps a live object: the object
at the cursor is recolored white, `sweep_prev` points at it, and the
cursor advances (the else-branch of `sweep_step`). -/
def sweepKept (h : Heap) (cur : Nat) (hd : GcHeader) : Heap :=
  { h with
    mem := h.mem.setColor cur GcColor.White
    sweepPrev := some cur
    sweepCurrent := hd.next }

/-- The heap after one sweep iteration frees a white object when
`sweep_prev = Some p`: unlink through `p`, account the free, deallocate,
advance the cursor. -/
def sweepFreedPrev (h : Heap) (cur p : Nat) (hd : GcHeader) : Heap :=
  { h with
    mem := (h.mem.setNext p hd.next).del cur
    bytesFreedThisCycle := h.bytesFreedThisCycle + hd.totalSize
    objectsFreedThisCycle := h.objectsFreedThisCycle + 1
    sweepCurrent := hd.next }

/-- The heap after one sweep iteration frees a white object when
`sweep_prev = None`: unlink through the list head, account the free,
deallocate, advance the cursor. -/
def sweepFreedHead (h : Heap) (cur : Nat) (hd : GcHeader) : Heap :=
  { h with
    allObjects := hd.next
    mem := h.mem.del cur
    bytesFreedThisCycle := h.bytesFreedThisCycle + hd.totalSize
    objectsFreedThisCycle := h.objectsFreedThisCycle + 1
    sweepCurrent := hd.next }

/-- `Heap::gc_step`: advance the collection by one bounded quantum;
returns the updated heap and whether the collection is still running. -/
def Heap.gcStep (ctx : GcContext) (h : Heap) : Heap × Bool :=
  match h.phase with
  | GcPhase.Idle => (h, false)
  | GcPhase.RootScanning => ({ h with phase := GcPhase.Marking }, true)
  | GcPhase.Marking =>
    let h1 := h.markStep ctx defaultMarkStepSize
    (h1, decide (h1.phase ≠ GcPhase.Idle))
  | GcPhase.WeakRefProcessing =>
    let h1 := { h with
      phase := GcPhase.Sweeping
      sweepPrev := none
      sweepCurrent := h.allObjects }
    (h1, true)
  | GcPhase.Sweeping =>
    let h1 := h.sweepStep defaultSweepStepSize
    (h1, decide (h1.phase ≠ GcPhase.Idle))

/-- `Heap::alloc_with_size`.  `ok` is the outcome of the system
allocator (`alloc::alloc::alloc` returning non-null).  The GC quantum
runs first whenever a collection is in progress; the raw allocation is
requested only afterwards, and on failure `Err(AllocError)` is returned
with no object created.  On success the header is written (black iff a
collection is still in progress after the quantum), the object is
prepended to the all-objects list and the counters grow. -/
def Heap.allocWithSize (ctx : GcContext) (ok : Bool) (size : Nat) (h : Heap) :
    Heap × Option Nat :=
  let h1 := if h.gcInProgress then (h.gcStep ctx).1 else h
  if ok then
    let i := h1.nextAddr
    let hd : GcHeader :=
      { color := if h1.gcInProgress then GcColor.Black else GcColor.White
        allocSize := size
        next := h1.allObjects }
    ({ h1 with
        mem := h1.mem.set i hd
        nextAddr := i + 1
        allObjects := some i
        bytesAllocated := h1.bytesAllocated + hd.totalSize
        numObjects := h1.numObjects + 1 }, some i)
  else (h1, none)

/-- The heap on which a successful or failed allocation actually takes
place: the state after the one GC quantum `alloc_with_size` runs when a
collection is in progress. -/
def allocStepped (ctx : GcContext) (h : Heap) : Heap :=
  if h.gcInProgress then (h.gcStep ctx).1 else h

/-- The successful tail of `alloc_with_size` on the (possibly stepped)
heap `h1`: write the header at a fresh address, link it at the head of
the all-objects list, bump the counters. -/
def allocFinish (size : Nat) (h1 : Heap) : Heap :=
  { h1 with
    mem := h1.mem.set h1.nextAddr
      { color := if h1.gcInProgress then GcColor.Black else GcColor.White
        allocSize := size
        next := h1.allObjects }
    nextAddr := h1.nextAddr + 1
    allObjects := some h1.nextAddr
    bytesAllocated := h1.bytesAllocated + (headerSize + size)
    numObjects := h1.numObjects + 1 }

/-- `Heap::write_barrier`: during the marking phases mark a non-dangling
target gray if it is white; otherwise do nothing.  A dangling or null
`GcPtr` is the `none` target. -/
def Heap.writeBarrier (h : Heap) (target : Option Nat) : Heap :=
  match target with
  | none => h
  | some i => if h.isMarking then h.markGrayRaw i else h

/-- `Heap::finish_gc`, fuelled: loop `gc_step`, counting steps, until it
reports completion.  Returns the heap and the step count. -/
def Heap.finishGcAux (ctx : GcContext) : Nat → Heap → Nat → Heap × Nat
  | 0, h, steps => (h, steps)
  | fuel + 1, h, steps =>
    let r := h.gcStep ctx
    if r.2 then Heap.finishGcAux ctx fuel r.1 (steps + 1)
    else (r.1, steps + 1)

/-- `Heap::finish_gc` with the given fuel. -/
def Heap.finishGc (ctx : GcContext) (h : Heap) (fuel : Nat) : Heap × Nat :=
  Heap.finishGcAux ctx fuel h 0

/-- The heap operations an embedder can invoke at a collection point. -/
inductive Op where
  | alloc (size : Nat)
  | allocFail (size : Nat)
  | step
  | barrier (target : Option Nat)
  | start

/-- Execute one operation against the heap. -/
def GcContext.exec (ctx : GcContext) (h : Heap) : Op → Heap
  | Op.alloc size => (h.allocWithSize ctx true size).1
  | Op.allocFail size => (h.allocWithSize ctx false size).1
  | Op.step => (h.gcStep ctx).1
  | Op.barrier t => h.writeBarrier t
  | Op.start => h.startGc ctx

/-- Run `gc_step` `n` times. -/
def stepN (ctx : GcContext) : Nat → Heap → Heap
  | 0, h => h
  | n + 1, h => stepN ctx n (h.gcStep ctx).1

/-- Run a list of successful allocations. -/
def allocRun (ctx : GcContext) (h : Heap) (sizes : List Nat) : Heap :=
  sizes.foldl (fun h sz => (h.allocWithSize ctx true sz).1) h

/-- The phase observed before each `gc_step` of a driving loop that
stops once the phase is `Idle`. -/
def phaseTrace (ctx : GcContext) : Nat → Heap → List GcPhase
  | 0, _ => []
  | n + 1, h =>
    if h.phase = GcPhase.Idle then []
    else h.phase :: phaseTrace ctx n (h.gcStep ctx).1

/-! ### The stack-root scope allocator (`handle.rs`)

Blocks are identified by their end pointer in the source (`end_ptr`
"uniquely identifies this block"); here each block carries an id, a raw
pointer into a block is an (id, cell index) pair, and a block's end
pointer is its id.  The chain of in-use blocks (`current_block` and its
`prev_block` links) is the list `cur` with the current block at the
head; `free_blocks` is the list `free`, ditto.  Cell contents are
irrelevant to the scope discipline and are not modelled. -/

/-- `HANDLE_BLOCK_SIZE`: cells per stack-root block. -/
def handleBlockSize : Nat := 512

/-- The stack-root (handle) context (`StackRootContext` in
`handle.rs`).  `freshBid` models the system allocator producing a new
distinct block. -/
structure StackRootContext where
  cur : List Nat
  nextIdx : Nat
  free : List Nat
  freshBid : Nat
deriving DecidableEq, Repr

/-- `StackRootContext::new`: one fresh block, fully free. -/
def StackRootContext.new : StackRootContext :=
  { cur := [0], nextIdx := 0, free := [], freshBid := 1 }

/-- Identity of the current block. -/
def StackRootContext.curBid (c : StackRootContext) : Nat := c.cur.headI

/-- The `next_ptr` field: address of the next free cell. -/
def StackRootContext.nextPtr (c : StackRootContext) : Nat × Nat :=
  (c.curBid, c.nextIdx)

/-- The `end_ptr` field: end address of the current block, which
uniquely identifies it. -/
def StackRootContext.endPtr (c : StackRootContext) : Nat := c.curBid

/-- `StackRootContext::push_block`: reuse the top free block if any,
else allocate a fresh one; it becomes the current block. -/
def StackRootContext.pushBlock (c : StackRootContext) : StackRootContext :=
  match c.free with
  | [] =>
    { c with cur := c.freshBid :: c.cur, freshBid := c.freshBid + 1, nextIdx := 0 }
  | f :: rest => { c with cur := f :: c.cur, free := rest, nextIdx := 0 }

/-- `StackRoot::new` without the stored contents: push a block when the
current one is full (`next_ptr == end_ptr`), then bump `next_ptr`. -/
def StackRootContext.newRoot (c : StackRootContext) : StackRootContext :=
  let c1 := if c.nextIdx = handleBlockSize then c.pushBlock else c
  { c1 with nextIdx := c1.nextIdx + 1 }

/-- Allocate `n` stack-root cells in sequence. -/
def newRootsN (c : StackRootContext) : Nat → StackRootContext
  | 0 => c
  | n + 1 => (newRootsN c n).newRoot

/-- A saved handle-scope snapshot (`StackRootScope`). -/
structure StackRootScope where
  savedNext : Nat × Nat
  savedEnd : Nat
deriving DecidableEq, Repr

/-- `StackRootScope::enter`: snapshot `(next_ptr, end_ptr)`. -/
def StackRootScope.enter (c : StackRootContext) : StackRootScope :=
  { savedNext := c.nextPtr, savedEnd := c.endPtr }

/-- The `while self.end_ptr != handle_context.pop_block()` loop of
`exit_non_consuming`: each `pop_block` moves the current block to the
front of the free list and returns the end pointer of the new current
block.  The source unwraps `prev_block`, so a chain that runs out (a
scope that was never entered) is a stuck state. -/
def popUntil (savedEnd : Nat) : List Nat → List Nat → List Nat × List Nat
  | b :: b2 :: rest, free =>
    if b2 = savedEnd then (b2 :: rest, b :: free)
    else popUntil savedEnd (b2 :: rest) (b :: free)
  | cur, free => (cur, free)

/-- `StackRootScope::exit` (via `exit_non_consuming`): pop blocks until
the current block is the saved one (when the saved `end_ptr` differs),
then restore `next_ptr` and `end_ptr` to the snapshot. -/
def StackRootScope.exitScope (s : StackRootScope) (c : StackRootContext) :
    StackRootContext :=
  if s.savedEnd = c.endPtr then { c with nextIdx := s.savedNext.2 }
  else
    let pr := popUntil s.savedEnd c.cur c.free
    { c with cur := pr.1, free := pr.2, nextIdx := s.savedNext.2 }

/-- Well-formedness of a stack-root context: a nonempty block chain,
no block in two places at once, and all block ids below the allocator
counter. -/
def SRWF (c : StackRootContext) : Prop :=
  c.cur ≠ [] ∧ (c.cur ++ c.free).Nodup ∧ ∀ b ∈ c.cur ++ c.free, b < c.freshBid

/-! ### Chains through memory, and heap well-formedness -/

/-- `ChainSeg m head L t`: starting from the pointer `head`, following
the headers' `next_object` fields visits exactly the addresses in `L`
and then reaches the pointer `t`. -/
inductive ChainSeg : Mem → Option Nat → List Nat → Option Nat → Prop where
  | nil (m : Mem) (t : Option Nat) : ChainSeg m t [] t
  | cons {m : Mem} {i : Nat} {hd : GcHeader} {L : List Nat} {t : Option Nat} :
      m i = some hd → ChainSeg m hd.next L t → ChainSeg m (some i) (i :: L) t

/-- The complete list reachable from `head`: a chain segment ending in
the null pointer. -/
def ChainIs (m : Mem) (head : Option Nat) (L : List Nat) : Prop :=
  ChainSeg m head L none

/-- Total bytes recorded for the objects of `L` (`total_size` summed). -/
def chainBytes (m : Mem) (L : List Nat) : Nat :=
  (L.map (fun j => match m j with | some hd => hd.totalSize | none => 0)).sum

/-- Well-formedness of a heap state, satisfied by `Heap.new` and
preserved by every operation.  During `Sweeping` the all-objects list
splits as `A ++ S` where `S` is the part the cursor has not yet
visited and `sweep_prev`, when set, is the last element of `A`. -/
structure WF (h : Heap) : Prop where
  chain : ∃ L, ChainIs h.mem h.allObjects L ∧ L.Nodup
  fresh : ∀ i hd, h.mem i = some hd → i < h.nextAddr
  grayMem : ∀ i ∈ h.grayQueue, ∃ hd, h.mem i = some hd ∧ hd.color = GcColor.Gray
  grayNodup : h.grayQueue.Nodup
  grayEmpty : h.phase = GcPhase.WeakRefProcessing ∨ h.phase = GcPhase.Sweeping →
    h.grayQueue = []
  sweep : h.phase = GcPhase.Sweeping →
    ∃ A S, ChainSeg h.mem h.allObjects A h.sweepCurrent ∧
      ChainIs h.mem h.sweepCurrent S ∧ (A ++ S).Nodup ∧
      (h.sweepPrev = none ∨ ∃ A0 p, h.sweepPrev = some p ∧ A = A0 ++ [p])

/-- The object at `i` cannot be freed by the remainder of the current
cycle: it is live and either non-white, or the sweep cursor is already
past it. -/
def ProtectedId (h : Heap) (i : Nat) : Prop :=
  ∃ hd, h.mem i = some hd ∧
    (hd.color ≠ GcColor.White ∨
      (h.phase = GcPhase.Sweeping ∧
        ∀ S, ChainIs h.mem h.sweepCurrent S → i ∉ S))

/-- The object at `i` stays in memory along the given operation
sequence, at least until the collection first returns to `Idle`. -/
def SurvivesCycle (ctx : GcContext) : Heap → Nat → List Op → Prop
  | _, _, [] => True
  | h, i, op :: ops =>
    h.phase = GcPhase.Idle ∨
      ((∃ hd, (ctx.exec h op).mem i = some hd) ∧
        SurvivesCycle ctx (ctx.exec h op) i ops)

/-- The allocation counters agree with the all-objects list:
`bytes_allocated` is the sum of the `total_size`s and `num_objects` the
list length. -/
def Accounted (h : Heap) : Prop :=
  ∀ L, ChainIs h.mem h.allObjects L →
    h.bytesAllocated = chainBytes h.mem L ∧ h.numObjects = L.length

/-- During sweeping, every object still on the all-objects list is
already recolored white or still ahead of the cursor. -/
def SweepPending (h : Heap) : Prop :=
  ∀ L, ChainIs h.mem h.allObjects L → ∀ j ∈ L,
    h.colorOf j = some GcColor.White ∨
      ∃ S, ChainIs h.mem h.sweepCurrent S ∧ j ∈ S

/-- Invariant driving the end-of-cycle whiteness theorem: pending
during `Sweeping`, all-white once `Idle`. -/
def CycleWhiteInv (h : Heap) : Prop :=
  (h.phase = GcPhase.Sweeping → SweepPending h) ∧
  (h.phase = GcPhase.Idle → ∀ L, ChainIs h.mem h.allObjects L → ∀ j ∈ L,
    h.colorOf j = some GcColor.White)

/-! ### Concrete scenarios (the spec's literal test scenarios) -/

/-- An embedder with no roots and no object pointers. -/
def gcCtxEmpty : GcContext := ⟨[], fun _ => []⟩

/-- An embedder rooting the object at address 0 only. -/
def gcCtxRoot0 : GcContext := ⟨[0], fun _ => []⟩

/-- An embedder for a 100-object reference cycle A0 → A1 → … → A99 → A0. -/
def gcCtxCycle100 : GcContext := ⟨[], fun i => if i < 100 then [(i + 1) % 100] else []⟩

/-- Collection started on the empty heap: phase `Marking`, nothing gray. -/
def cexStart : Heap := Heap.new.startGc gcCtxEmpty

/-- First allocation during the cycle (call made in `Marking`). -/
def cexA1 : Heap × Option Nat := cexStart.allocWithSize gcCtxEmpty true 16

/-- Second allocation during the cycle (call made in `WeakRefProcessing`). -/
def cexA2 : Heap × Option Nat := cexA1.1.allocWithSize gcCtxEmpty true 16

/-- Third allocation during the cycle (call made in `Sweeping`; the
embedded quantum finishes the collection). -/
def cexA3 : Heap × Option Nat := cexA2.1.allocWithSize gcCtxEmpty true 16

/-- Scenario: 10 plain unrooted objects. -/
def heap10 : Heap := allocRun gcCtxEmpty Heap.new (List.replicate 10 16)

/-- Scenario: collection started over the 10 unrooted objects. -/
def heap10Started : Heap := heap10.startGc gcCtxEmpty

/-- Scenario: 100 objects forming an unrooted reference cycle. -/
def heap100 : Heap := allocRun gcCtxCycle100 Heap.new (List.replicate 100 16)

/-- Scenario: collection started over the 100-object cycle. -/
def heap100Started : Heap := heap100.startGc gcCtxCycle100

/-- Scenario: two objects, the older one rooted. -/
def heapRooted : Heap := allocRun gcCtxRoot0 Heap.new [16, 16]

/-- Scenario: collection started over the rooted pair. -/
def heapRootedStarted : Heap := heapRooted.startGc gcCtxRoot0

/-- A small hand-built heap used to exercise the write barrier: one
white object at address 0, collection in the `Marking` phase. -/
def wbHeap : Heap :=
  { Heap.new with
    mem := Mem.set (fun _ => none) 0 ⟨GcColor.White, 16, none⟩
    nextAddr := 1
    allObjects := some 0
    bytesAllocated := 40
    numObjects := 1
    phase := GcPhase.Marking }

/-! ## Basic lemmas about memory updates and chains -/

theorem Mem.set_self (m : Mem) (i : Nat) (hd : GcHeader) : m.set i hd i = some hd := by
  simp [Mem.set]

theorem Mem.set_other (m : Mem) (i j : Nat) (hd : GcHeader) (hj : j ≠ i) :
    m.set i hd j = m j := by
  simp [Mem.set, hj]

theorem Mem.del_self (m : Mem) (i : Nat) : m.del i i = none := by
  simp [Mem.del]

theorem Mem.del_other (m : Mem) (i j : Nat) (hj : j ≠ i) : m.del i j = m j := by
  simp [Mem.del, hj]

theorem Mem.setColor_self (m : Mem) (i : Nat) (c : GcColor) :
    m.setColor i c i = (m i).map (fun hd => { hd with color := c }) := by
  simp [Mem.setColor]

theorem Mem.setColor_other (m : Mem) (i j : Nat) (c : GcColor) (hj : j ≠ i) :
    m.setColor i c j = m j := by
  simp [Mem.setColor, hj]

theorem Mem.setNext_self (m : Mem) (i : Nat) (t : Option Nat) :
    m.setNext i t i = (m i).map (fun hd => { hd with next := t }) := by
  simp [Mem.setNext]

theorem Mem.setNext_other (m : Mem) (i j : Nat) (t : Option Nat) (hj : j ≠ i) :
    m.setNext i t j = m j := by
  simp [Mem.setNext, hj]

theorem Mem.setColor_next_map (m : Mem) (i : Nat) (c : GcColor) (j : Nat) :
    (m.setColor i c j).map GcHeader.next = (m j).map GcHeader.next := by
  by_cases hj : j = i
  · subst hj
    simp only [Mem.setColor_self]
    cases m j <;> rfl
  · rw [Mem.setColor_other m i j c hj]

theorem Mem.setColor_isSome (m : Mem) (i : Nat) (c : GcColor) (j : Nat) :
    (m.setColor i c j).isSome = (m j).isSome := by
  by_cases hj : j = i
  · subst hj
    simp only [Mem.setColor_self]
    cases m j <;> rfl
  · rw [Mem.setColor_other m i j c hj]

theorem chainSeg_nil_iff (m : Mem) (head t : Option Nat) :
    ChainSeg m head [] t ↔ head = t := by
  constructor
  · intro h
    cases h
    rfl
  · intro h
    subst h
    exact ChainSeg.nil m head

theorem chainSeg_cons_iff (m : Mem) (head : Option Nat) (i : Nat) (L : List Nat)
    (t : Option Nat) :
    ChainSeg m head (i :: L) t ↔
      head = some i ∧ ∃ hd, m i = some hd ∧ ChainSeg m hd.next L t := by
  constructor
  · intro h
    cases h with
    | cons hm hrest => exact ⟨rfl, _, hm, hrest⟩
  · rintro ⟨rfl, hd, hm, hrest⟩
    exact ChainSeg.cons hm hrest

theorem chainSeg_append_iff (m : Mem) (A B : List Nat) (head t : Option Nat) :
    ChainSeg m head (A ++ B) t ↔
      ∃ mid, ChainSeg m head A mid ∧ ChainSeg m mid B t := by
  induction A generalizing head with
  | nil =>
    simp only [List.nil_append]
    constructor
    · intro h
      exact ⟨head, ChainSeg.nil m head, h⟩
    · rintro ⟨mid, hA, hB⟩
      rw [chainSeg_nil_iff] at hA
      rwa [hA]
  | cons i A ih =>
    simp only [List.cons_append, chainSeg_cons_iff]
    constructor
    · rintro ⟨rfl, hd, hm, hrest⟩
      obtain ⟨mid, h1, h2⟩ := (ih hd.next).mp hrest
      exact ⟨mid, ⟨rfl, hd, hm, h1⟩, h2⟩
    · rintro ⟨mid, ⟨rfl, hd, hm, h1⟩, h2⟩
      exact ⟨rfl, hd, hm, (ih hd.next).mpr ⟨mid, h1, h2⟩⟩

theorem chainSeg_mem_some {m : Mem} {head t : Option Nat} {L : List Nat}
    (h : ChainSeg m head L t) {j : Nat} (hj : j ∈ L) : ∃ hd, m j = some hd := by
  induction h with
  | nil => cases hj
  | cons hm _ ih =>
    rcases List.mem_cons.mp hj with rfl | hj'
    · exact ⟨_, hm⟩
    · exact ih hj'

theorem chainSeg_of_next_agree {m m' : Mem} {head t : Option Nat} {L : List Nat}
    (hagree : ∀ j ∈ L, (m' j).map GcHeader.next = (m j).map GcHeader.next)
    (h : ChainSeg m head L t) : ChainSeg m' head L t := by
  induction h with
  | nil => exact ChainSeg.nil m' _
  | cons hm hrest ih =>
    rename_i i hd L t
    have hj := hagree i (List.mem_cons_self i L)
    rw [hm] at hj
    cases hm' : m' i with
    | none => rw [hm'] at hj; cases hj
    | some hd' =>
      rw [hm'] at hj
      have hnext : hd'.next = hd.next := by
        simpa using hj
      refine ChainSeg.cons hm' ?_
      rw [hnext]
      exact ih (fun j hjL => hagree j (List.mem_cons_of_mem _ hjL))

theorem markGrayRaw_cases (h : Heap) (i : Nat) :
    h.markGrayRaw i = h ∨
      ∃ hd, h.mem i = some hd ∧ hd.color = GcColor.White ∧
        h.markGrayRaw i =
          { h with mem := h.mem.setColor i GcColor.Gray, grayQueue := i :: h.grayQueue } := by
  cases hm : h.mem i with
  | none =>
    left
    unfold Heap.markGrayRaw
    rw [hm]
  | some hd =>
    by_cases hc : hd.color = GcColor.White
    · right
      refine ⟨hd, rfl, hc, ?_⟩
      unfold Heap.markGrayRaw
      rw [hm]
      simp [hc]
    · left
      unfold Heap.markGrayRaw
      rw [hm]
      simp [hc]

theorem markGrayRaw_fields (h : Heap) (i : Nat) :
    (h.markGrayRaw i).phase = h.phase ∧ (h.markGrayRaw i).nextAddr = h.nextAddr ∧
      (h.markGrayRaw i).allObjects = h.allObjects ∧
      (h.markGrayRaw i).sweepPrev = h.sweepPrev ∧
      (h.markGrayRaw i).sweepCurrent = h.sweepCurrent ∧
      (h.markGrayRaw i).bytesAllocated = h.bytesAllocated ∧
      (h.markGrayRaw i).numObjects = h.numObjects := by
  rcases markGrayRaw_cases h i with he | ⟨hd, _, _, he⟩ <;> rw [he] <;> exact ⟨rfl, rfl, rfl, rfl, rfl, rfl, rfl⟩

theorem markGrayRaw_next_map (h : Heap) (i j : Nat) :
    ((h.markGrayRaw i).mem j).map GcHeader.next = (h.mem j).map GcHeader.next := by
  rcases markGrayRaw_cases h i with he | ⟨hd, _, _, he⟩ <;> rw [he]
  exact Mem.setColor_next_map h.mem i GcColor.Gray j

theorem markGrayRaw_isSome (h : Heap) (i j : Nat) :
    ((h.markGrayRaw i).mem j).isSome = (h.mem j).isSome := by
  rcases markGrayRaw_cases h i with he | ⟨hd, _, _, he⟩ <;> rw [he]
  exact Mem.setColor_isSome h.mem i GcColor.Gray j

theorem markGrayRaw_white_mono (h : Heap) (i j : Nat)
    (hw : (h.markGrayRaw i).colorOf j = some GcColor.White) :
    h.colorOf j = some GcColor.White := by
  rcases markGrayRaw_cases h i with he | ⟨hd, hm, _, he⟩
  · rwa [he] at hw
  · rw [he] at hw
    by_cases hj : j = i
    · subst hj
      simp only [Heap.colorOf, Mem.setColor_self, hm] at hw
      cases hw
    · simpa only [Heap.colorOf, Mem.setColor_other h.mem i j GcColor.Gray hj] using hw

theorem markGrayRaw_queue_sub (h : Heap) (i j : Nat)
    (hj : j ∈ (h.markGrayRaw i).grayQueue) :
    j ∈ h.grayQueue ∨ h.colorOf j = some GcColor.White := by
  rcases markGrayRaw_cases h i with he | ⟨hd, hm, hc, he⟩
  · rw [he] at hj
    exact Or.inl hj
  · rw [he] at hj
    rcases List.mem_cons.mp hj with rfl | hj'
    · right
      simp [Heap.colorOf, hm, hc]
    · exact Or.inl hj'

theorem markGrayRaw_wf (h : Heap) (i : Nat)
    (hph : h.phase = GcPhase.RootScanning ∨ h.phase = GcPhase.Marking)
    (hwf : WF h) : WF (h.markGrayRaw i) := by
  rcases markGrayRaw_cases h i with he | ⟨hd, hm, hc, he⟩
  · rwa [he]
  · rw [he]
    refine ⟨?_, ?_, ?_, ?_, ?_, ?_⟩
    · obtain ⟨L, hL, hnd⟩ := hwf.chain
      exact ⟨L, chainSeg_of_next_agree
        (fun j _ => Mem.setColor_next_map h.mem i GcColor.Gray j) hL, hnd⟩
    · intro j hdj hmj
      have hmj' : h.mem.setColor i GcColor.Gray j = some hdj := hmj
      by_cases hji : j = i
      · subst hji
        exact hwf.fresh j hd hm
      · rw [Mem.setColor_other h.mem i j GcColor.Gray hji] at hmj'
        exact hwf.fresh j hdj hmj'
    · intro j hj
      have hj1 : j ∈ i :: h.grayQueue := hj
      show ∃ hd2, h.mem.setColor i GcColor.Gray j = some hd2 ∧ hd2.color = GcColor.Gray
      rcases List.mem_cons.mp hj1 with rfl | hj'
      · refine ⟨{ hd with color := GcColor.Gray }, ?_, rfl⟩
        rw [Mem.setColor_self, hm]
        rfl
      · obtain ⟨hd', hmj, hcj⟩ := hwf.grayMem j hj'
        have hji : j ≠ i := by
          rintro rfl
          rw [hm] at hmj
          injection hmj with hdd
          rw [hdd] at hc
          rw [hc] at hcj
          cases hcj
        refine ⟨hd', ?_, hcj⟩
        rw [Mem.setColor_other h.mem i j GcColor.Gray hji]
        exact hmj
    · show (i :: h.grayQueue).Nodup
      refine List.nodup_cons.mpr ⟨?_, hwf.grayNodup⟩
      intro hmem
      obtain ⟨hd', hmj, hcj⟩ := hwf.grayMem i hmem
      rw [hm] at hmj
      injection hmj with hdd
      rw [hdd] at hc
      rw [hc] at hcj
      cases hcj
    · intro hph'
      have hph2 : h.phase = GcPhase.WeakRefProcessing ∨ h.phase = GcPhase.Sweeping := hph'
      rcases hph with hph | hph <;> rcases hph2 with hph2 | hph2 <;>
        rw [hph] at hph2 <;> cases hph2
    · intro hph'
      have hph2 : h.phase = GcPhase.Sweeping := hph'
      rcases hph with hph | hph <;> rw [hph] at hph2 <;> cases hph2

theorem markGrayList_fields (h : Heap) (l : List Nat) :
    (h.markGrayList l).phase = h.phase ∧ (h.markGrayList l).nextAddr = h.nextAddr ∧
      (h.markGrayList l).allObjects = h.allObjects ∧
      (h.markGrayList l).sweepPrev = h.sweepPrev ∧
      (h.markGrayList l).sweepCurrent = h.sweepCurrent ∧
      (h.markGrayList l).bytesAllocated = h.bytesAllocated ∧
      (h.markGrayList l).numObjects = h.numObjects := by
  induction l generalizing h with
  | nil => exact ⟨rfl, rfl, rfl, rfl, rfl, rfl, rfl⟩
  | cons a l ih =>
    have h1 := markGrayRaw_fields h a
    have h2 := ih (h.markGrayRaw a)
    exact ⟨h2.1.trans h1.1, h2.2.1.trans h1.2.1, h2.2.2.1.trans h1.2.2.1,
      h2.2.2.2.1.trans h1.2.2.2.1, h2.2.2.2.2.1.trans h1.2.2.2.2.1,
      h2.2.2.2.2.2.1.trans h1.2.2.2.2.2.1, h2.2.2.2.2.2.2.trans h1.2.2.2.2.2.2⟩

theorem markGrayList_next_map (h : Heap) (l : List Nat) (j : Nat) :
    ((h.markGrayList l).mem j).map GcHeader.next = (h.mem j).map GcHeader.next := by
  induction l generalizing h with
  | nil => rfl
  | cons a l ih => exact (ih (h.markGrayRaw a)).trans (markGrayRaw_next_map h a j)

theorem markGrayList_isSome (h : Heap) (l : List Nat) (j : Nat) :
    ((h.markGrayList l).mem j).isSome = (h.mem j).isSome := by
  induction l generalizing h with
  | nil => rfl
  | cons a l ih => exact (ih (h.markGrayRaw a)).trans (markGrayRaw_isSome h a j)

theorem markGrayList_white_mono (h : Heap) (l : List Nat) (j : Nat)
    (hw : (h.markGrayList l).colorOf j = some GcColor.White) :
    h.colorOf j = some GcColor.White := by
  induction l generalizing h with
  | nil => exact hw
  | cons a l ih => exact markGrayRaw_white_mono h a j (ih (h.markGrayRaw a) hw)

theorem markGrayList_queue_sub (h : Heap) (l : List Nat) (j : Nat)
    (hj : j ∈ (h.markGrayList l).grayQueue) :
    j ∈ h.grayQueue ∨ h.colorOf j = some GcColor.White := by
  induction l generalizing h with
  | nil => exact Or.inl hj
  | cons a l ih =>
    rcases ih (h.markGrayRaw a) hj with hin | hwhite
    · exact markGrayRaw_queue_sub h a j hin
    · exact Or.inr (markGrayRaw_white_mono h a j hwhite)

theorem markGrayList_wf (h : Heap) (l : List Nat)
    (hph : h.phase = GcPhase.RootScanning ∨ h.phase = GcPhase.Marking)
    (hwf : WF h) : WF (h.markGrayList l) := by
  induction l generalizing h with
  | nil => exact hwf
  | cons a l ih =>
    refine ih (h.markGrayRaw a) ?_ (markGrayRaw_wf h a hph hwf)
    rw [(markGrayRaw_fields h a).1]
    exact hph

theorem markStep_fields (ctx : GcContext) (h : Heap) (n : Nat) :
    (h.markStep ctx n).nextAddr = h.nextAddr ∧
      (h.markStep ctx n).allObjects = h.allObjects ∧
      (h.markStep ctx n).sweepPrev = h.sweepPrev ∧
      (h.markStep ctx n).sweepCurrent = h.sweepCurrent ∧
      (h.markStep ctx n).bytesAllocated = h.bytesAllocated ∧
      (h.markStep ctx n).numObjects = h.numObjects := by
  induction n generalizing h with
  | zero => exact ⟨rfl, rfl, rfl, rfl, rfl, rfl⟩
  | succ n ih =>
    simp only [Heap.markStep]
    cases hq : h.grayQueue with
    | nil => exact ⟨rfl, rfl, rfl, rfl, rfl, rfl⟩
    | cons i rest =>
      set h1 : Heap := { h with grayQueue := rest, mem := h.mem.setColor i GcColor.Black } with hh1
      have h2f := markGrayList_fields h1 (ctx.edges i)
      have h3f := ih (h1.markGrayList (ctx.edges i))
      refine ⟨?_, ?_, ?_, ?_, ?_, ?_⟩
      · exact h3f.1.trans h2f.2.1
      · exact h3f.2.1.trans h2f.2.2.1
      · exact h3f.2.2.1.trans h2f.2.2.2.1
      · exact h3f.2.2.2.1.trans h2f.2.2.2.2.1
      · exact h3f.2.2.2.2.1.trans h2f.2.2.2.2.2.1
      · exact h3f.2.2.2.2.2.trans h2f.2.2.2.2.2.2

theorem sweepStep_fields (h : Heap) (n : Nat) :
    (h.sweepStep n).nextAddr = h.nextAddr ∧ (h.sweepStep n).grayQueue = h.grayQueue := by
  induction n generalizing h with
  | zero => exact ⟨rfl, rfl⟩
  | succ n ih =>
    simp only [Heap.sweepStep]
    split
    · exact ⟨rfl, rfl⟩
    · rename_i cur hsc
      split
      · exact ⟨rfl, rfl⟩
      · rename_i hd hmc
        split
        · split
          · rename_i p hsp
            exact ih _
          · rename_i hsp
            exact ih _
        · exact ih _

theorem markStep_phase (ctx : GcContext) (h : Heap) (n : Nat) :
    (h.markStep ctx n).phase = h.phase ∨
      ((h.markStep ctx n).phase = GcPhase.WeakRefProcessing ∧
        (h.markStep ctx n).grayQueue = []) := by
  induction n generalizing h with
  | zero => exact Or.inl rfl
  | succ n ih =>
    simp only [Heap.markStep]
    cases hq : h.grayQueue with
    | nil => exact Or.inr ⟨rfl, rfl⟩
    | cons i rest =>
      set h1 : Heap := { h with grayQueue := rest, mem := h.mem.setColor i GcColor.Black } with hh1
      rcases ih (h1.markGrayList (ctx.edges i)) with hsame | hweak
      · left
        rw [hsame]
        exact (markGrayList_fields _ (ctx.edges i)).1
      · exact Or.inr hweak

theorem markStep_next_map (ctx : GcContext) (h : Heap) (n : Nat) (j : Nat) :
    ((h.markStep ctx n).mem j).map GcHeader.next = (h.mem j).map GcHeader.next := by
  induction n generalizing h with
  | zero => rfl
  | succ n ih =>
    simp only [Heap.markStep]
    cases hq : h.grayQueue with
    | nil => rfl
    | cons i rest =>
      set h1 : Heap := { h with grayQueue := rest, mem := h.mem.setColor i GcColor.Black } with hh1
      refine ((ih (h1.markGrayList (ctx.edges i))).trans
        (markGrayList_next_map h1 (ctx.edges i) j)).trans ?_
      exact Mem.setColor_next_map h.mem i GcColor.Black j

theorem markStep_isSome (ctx : GcContext) (h : Heap) (n : Nat) (j : Nat) :
    ((h.markStep ctx n).mem j).isSome = (h.mem j).isSome := by
  induction n generalizing h with
  | zero => rfl
  | succ n ih =>
    simp only [Heap.markStep]
    cases hq : h.grayQueue with
    | nil => rfl
    | cons i rest =>
      set h1 : Heap := { h with grayQueue := rest, mem := h.mem.setColor i GcColor.Black } with hh1
      refine ((ih (h1.markGrayList (ctx.edges i))).trans
        (markGrayList_isSome h1 (ctx.edges i) j)).trans ?_
      exact Mem.setColor_isSome h.mem i GcColor.Black j

theorem markStep_white_mono (ctx : GcContext) (h : Heap) (n : Nat) (j : Nat)
    (hw : (h.markStep ctx n).colorOf j = some GcColor.White) :
    h.colorOf j = some GcColor.White := by
  induction n generalizing h with
  | zero => exact hw
  | succ n ih =>
    simp only [Heap.markStep] at hw
    revert hw
    cases hq : h.grayQueue with
    | nil => exact fun hw => hw
    | cons i rest =>
      intro hw
      set h1 : Heap := { h with grayQueue := rest, mem := h.mem.setColor i GcColor.Black } with hh1
      have hw1 : h1.colorOf j = some GcColor.White :=
        markGrayList_white_mono h1 (ctx.edges i) j (ih (h1.markGrayList (ctx.edges i)) hw)
      by_cases hji : j = i
      · subst hji
        have : h1.colorOf j = (h.mem j).map (fun hd => GcColor.Black) := by
          show (h.mem.setColor j GcColor.Black j).map GcHeader.color = _
          rw [Mem.setColor_self]
          cases h.mem j <;> rfl
        rw [this] at hw1
        cases hmj : h.mem j <;> rw [hmj] at hw1
        · cases hw1
        · cases hw1
      · have : h1.colorOf j = h.colorOf j := by
          show (h.mem.setColor i GcColor.Black j).map GcHeader.color = _
          rw [Mem.setColor_other h.mem i j GcColor.Black hji]
          rfl
        rw [← this]
        exact hw1

theorem markStep_queue_sub (ctx : GcContext) (h : Heap) (n : Nat) (j : Nat)
    (hj : j ∈ (h.markStep ctx n).grayQueue) :
    j ∈ h.grayQueue ∨ h.colorOf j = some GcColor.White := by
  induction n generalizing h with
  | zero => exact Or.inl hj
  | succ n ih =>
    simp only [Heap.markStep] at hj
    revert hj
    cases hq : h.grayQueue with
    | nil => exact fun hj => Or.inl hj
    | cons i rest =>
      intro hj
      set h1 : Heap := { h with grayQueue := rest, mem := h.mem.setColor i GcColor.Black } with hh1
      have hwhite1 : ∀ k, h1.colorOf k = some GcColor.White → h.colorOf k = some GcColor.White := by
        intro k hk
        by_cases hki : k = i
        · subst hki
          exfalso
          revert hk
          show (h.mem.setColor k GcColor.Black k).map GcHeader.color = some GcColor.White → False
          rw [Mem.setColor_self]
          cases h.mem k <;> intro hk <;> cases hk
        · revert hk
          show (h.mem.setColor i GcColor.Black k).map GcHeader.color = some GcColor.White → _
          rw [Mem.setColor_other h.mem i k GcColor.Black hki]
          exact fun hk => hk
      rcases ih (h1.markGrayList (ctx.edges i)) hj with hin | hwhite
      · rcases markGrayList_queue_sub h1 (ctx.edges i) j hin with hin1 | hwhite1'
        · exact Or.inl (List.mem_cons_of_mem i hin1)
        · exact Or.inr (hwhite1 j hwhite1')
      · exact Or.inr (hwhite1 j (markGrayList_white_mono h1 (ctx.edges i) j hwhite))

theorem markStep_wf (ctx : GcContext) (h : Heap) (n : Nat)
    (hph : h.phase = GcPhase.Marking) (hwf : WF h) : WF (h.markStep ctx n) := by
  induction n generalizing h with
  | zero => exact hwf
  | succ n ih =>
    simp only [Heap.markStep]
    cases hq : h.grayQueue with
    | nil =>
      refine ⟨hwf.chain, hwf.fresh, ?_, ?_, ?_, ?_⟩
      · intro j hj
        have hj' : j ∈ ([] : List Nat) := hj
        cases hj'
      · exact List.nodup_nil
      · exact fun _ => rfl
      · intro hsw
        have : GcPhase.WeakRefProcessing = GcPhase.Sweeping := hsw
        cases this
    | cons i rest =>
      set h1 : Heap := { h with grayQueue := rest, mem := h.mem.setColor i GcColor.Black } with hh1
      have hndq : h.grayQueue.Nodup := hwf.grayNodup
      rw [hq] at hndq
      have hinotrest : i ∉ rest := (List.nodup_cons.mp hndq).1
      have hwf1 : WF h1 := by
        refine ⟨?_, ?_, ?_, ?_, ?_, ?_⟩
        · obtain ⟨L, hL, hnd⟩ := hwf.chain
          exact ⟨L, chainSeg_of_next_agree
            (fun j _ => Mem.setColor_next_map h.mem i GcColor.Black j) hL, hnd⟩
        · intro j hdj hmj
          have hmj' : h.mem.setColor i GcColor.Black j = some hdj := hmj
          by_cases hji : j = i
          · subst hji
            cases hmo : h.mem j with
            | none =>
              rw [Mem.setColor_self, hmo] at hmj'
              cases hmj'
            | some hdo => exact hwf.fresh j hdo hmo
          · rw [Mem.setColor_other h.mem i j GcColor.Black hji] at hmj'
            exact hwf.fresh j hdj hmj'
        · intro j hj
          have hj' : j ∈ rest := hj
          have hji : j ≠ i := fun hcon => hinotrest (hcon ▸ hj')
          obtain ⟨hdj, hmj, hcj⟩ := hwf.grayMem j (by rw [hq]; exact List.mem_cons_of_mem i hj')
          refine ⟨hdj, ?_, hcj⟩
          show h.mem.setColor i GcColor.Black j = some hdj
          rw [Mem.setColor_other h.mem i j GcColor.Black hji]
          exact hmj
        · exact (List.nodup_cons.mp hndq).2
        · intro hph'
          have hph2 : h.phase = GcPhase.WeakRefProcessing ∨ h.phase = GcPhase.Sweeping := hph'
          rw [hph] at hph2
          rcases hph2 with hph2 | hph2 <;> cases hph2
        · intro hph'
          have hph2 : h.phase = GcPhase.Sweeping := hph'
          rw [hph] at hph2
          cases hph2
      have hwf2 : WF (h1.markGrayList (ctx.edges i)) :=
        markGrayList_wf h1 (ctx.edges i) (Or.inr hph) hwf1
      refine ih (h1.markGrayList (ctx.edges i)) ?_ hwf2
      rw [(markGrayList_fields h1 (ctx.edges i)).1]
      exact hph

theorem chainIs_unique {m : Mem} {head : Option Nat} {L1 L2 : List Nat}
    (h1 : ChainIs m head L1) (h2 : ChainIs m head L2) : L1 = L2 := by
  induction L1 generalizing head L2 with
  | nil =>
    rw [ChainIs, chainSeg_nil_iff] at h1
    subst h1
    cases L2 with
    | nil => rfl
    | cons j L2 =>
      rw [ChainIs, chainSeg_cons_iff] at h2
      exact absurd h2.1 (by simp)
  | cons i L1 ih =>
    rw [ChainIs, chainSeg_cons_iff] at h1
    obtain ⟨rfl, hd, hm, hrest⟩ := h1
    cases L2 with
    | nil =>
      rw [ChainIs, chainSeg_nil_iff] at h2
      cases h2
    | cons j L2 =>
      rw [ChainIs, chainSeg_cons_iff] at h2
      obtain ⟨hij, hd', hm', hrest'⟩ := h2
      have hji : j = i := by
        injection hij with hij
        exact hij.symm
      subst hji
      rw [hm] at hm'
      injection hm' with hdd
      subst hdd
      rw [ih hrest hrest']


theorem sweepIterKept (h : Heap) (cur : Nat) (hd : GcHeader) (hwf : WF h)
    (hph : h.phase = GcPhase.Sweeping) (hsc : h.sweepCurrent = some cur)
    (hmc : h.mem cur = some hd) (hcw : hd.color ≠ GcColor.White) :
    WF (sweepKept h cur hd) ∧ (sweepKept h cur hd).phase = GcPhase.Sweeping ∧
      (∀ i, ProtectedId h i → ProtectedId (sweepKept h cur hd) i) ∧
      (SweepPending h → SweepPending (sweepKept h cur hd)) := by
  obtain ⟨A, S, hA, hS, hnd, hprev⟩ := hwf.sweep hph
  rw [hsc] at hA hS
  -- decompose S = cur :: S'
  obtain ⟨S', hrest, hmc2⟩ : ∃ S', ChainSeg h.mem hd.next S' none ∧ S = cur :: S' := by
    cases hS with
    | cons hm hr =>
      rename_i hd2 S2
      rw [hmc] at hm
      injection hm with hm
      subst hm
      exact ⟨S2, hr, rfl⟩
  subst hmc2
  have hqe : h.grayQueue = [] := hwf.grayEmpty (Or.inr hph)
  have hdisj : List.Disjoint A (cur :: S') := List.disjoint_of_nodup_append hnd
  have hcurA : cur ∉ A := fun hin => hdisj hin (List.mem_cons_self cur S')
  have hndS : (cur :: S').Nodup := hnd.of_append_right
  have hcurS' : cur ∉ S' := (List.nodup_cons.mp hndS).1
  set m1 : Mem := h.mem.setColor cur GcColor.White with hm1
  have hagree : ∀ j, (m1 j).map GcHeader.next = (h.mem j).map GcHeader.next :=
    fun j => Mem.setColor_next_map h.mem cur GcColor.White j
  have hA1 : ChainSeg m1 h.allObjects A (some cur) :=
    chainSeg_of_next_agree (fun j _ => hagree j) hA
  have hrest1 : ChainSeg m1 hd.next S' none :=
    chainSeg_of_next_agree (fun j _ => hagree j) hrest
  have hm1cur : m1 cur = some { hd with color := GcColor.White } := by
    rw [hm1, Mem.setColor_self, hmc]
    rfl
  have hseg1 : ChainSeg m1 (some cur) [cur] hd.next := by
    refine ChainSeg.cons hm1cur ?_
    exact ChainSeg.nil m1 hd.next
  have hAfull : ChainSeg m1 h.allObjects (A ++ [cur]) hd.next :=
    (chainSeg_append_iff m1 A [cur] h.allObjects hd.next).mpr ⟨some cur, hA1, hseg1⟩
  have hchain1 : ChainIs m1 h.allObjects (A ++ cur :: S') := by
    refine (chainSeg_append_iff m1 A (cur :: S') h.allObjects none).mpr
      ⟨some cur, hA1, ?_⟩
    exact ChainSeg.cons hm1cur hrest1
  have hndfull : ((A ++ [cur]) ++ S').Nodup := by
    rw [List.append_assoc]
    exact hnd
  refine ⟨⟨?_, ?_, ?_, ?_, ?_, ?_⟩, hph, ?_, ?_⟩
  · exact ⟨A ++ cur :: S', hchain1, hnd⟩
  · intro j hdj hmj
    have hmj' : m1 j = some hdj := hmj
    by_cases hji : j = cur
    · subst hji
      exact hwf.fresh j hd hmc
    · rw [hm1, Mem.setColor_other h.mem cur j GcColor.White hji] at hmj'
      exact hwf.fresh j hdj hmj'
  · intro j hj
    have hj' : j ∈ h.grayQueue := hj
    rw [hqe] at hj'
    cases hj'
  · show h.grayQueue.Nodup
    exact hwf.grayNodup
  · intro _
    exact hqe
  · intro _
    exact ⟨A ++ [cur], S', hAfull, hrest1, hndfull, Or.inr ⟨A, cur, rfl, rfl⟩⟩
  · intro i hpi
    obtain ⟨hdi, hmi, hdisji⟩ := hpi
    by_cases hic : i = cur
    · subst hic
      refine ⟨{ hd with color := GcColor.White }, hm1cur, Or.inr ⟨hph, ?_⟩⟩
      intro S2 hS2
      have : S2 = S' := chainIs_unique hS2 hrest1
      subst this
      exact hcurS'
    · refine ⟨hdi, ?_, ?_⟩
      · show m1 i = some hdi
        rw [hm1, Mem.setColor_other h.mem cur i GcColor.White hic]
        exact hmi
      · rcases hdisji with hcol | ⟨_, hnotin⟩
        · exact Or.inl hcol
        · refine Or.inr ⟨hph, ?_⟩
          intro S2 hS2
          have heq : S2 = S' := chainIs_unique hS2 hrest1
          rw [heq]
          have hiS : i ∉ cur :: S' := hnotin (cur :: S') (by rw [hsc]; exact hS)
          exact fun hin => hiS (List.mem_cons_of_mem cur hin)
  · intro hpend L2 hL2 j hj
    have hL2' : L2 = A ++ cur :: S' := chainIs_unique hL2 hchain1
    subst hL2'
    have hLold : ChainIs h.mem h.allObjects (A ++ cur :: S') := by
      refine (chainSeg_append_iff h.mem A (cur :: S') h.allObjects none).mpr
        ⟨some cur, hA, hS⟩
    have hold := hpend (A ++ cur :: S') hLold j hj
    by_cases hjc : j = cur
    · subst hjc
      left
      show (m1 j).map GcHeader.color = some GcColor.White
      rw [hm1cur]
      rfl
    · rcases hold with hwhite | ⟨S2, hS2, hjS2⟩
      · left
        show (m1 j).map GcHeader.color = some GcColor.White
        rw [hm1, Mem.setColor_other h.mem cur j GcColor.White hjc]
        exact hwhite
      · have : S2 = cur :: S' := by
          refine chainIs_unique hS2 ?_
          rw [hsc]
          exact hS
        subst this
        have hjS' : j ∈ S' := by
          rcases List.mem_cons.mp hjS2 with h1 | h1
          · exact absurd h1 hjc
          · exact h1
        exact Or.inr ⟨S', hrest1, hjS'⟩

theorem Mem.setNext_color_map (m : Mem) (p : Nat) (t : Option Nat) (j : Nat) :
    (m.setNext p t j).map GcHeader.color = (m j).map GcHeader.color := by
  by_cases hj : j = p
  · subst hj
    rw [Mem.setNext_self]
    cases m j <;> rfl
  · rw [Mem.setNext_other m p j t hj]

theorem sweepIterFreedPrev (h : Heap) (cur p : Nat) (hd : GcHeader) (hwf : WF h)
    (hph : h.phase = GcPhase.Sweeping) (hsc : h.sweepCurrent = some cur)
    (hmc : h.mem cur = some hd) (hcw : hd.color = GcColor.White)
    (hsp : h.sweepPrev = some p) :
    WF (sweepFreedPrev h cur p hd) ∧
      (sweepFreedPrev h cur p hd).phase = GcPhase.Sweeping ∧
      (∀ i, ProtectedId h i → ProtectedId (sweepFreedPrev h cur p hd) i) ∧
      (SweepPending h → SweepPending (sweepFreedPrev h cur p hd)) := by
  obtain ⟨A, S, hA, hS, hnd, hprev⟩ := hwf.sweep hph
  rw [hsc] at hA hS
  obtain ⟨A0, hAeq⟩ : ∃ A0, A = A0 ++ [p] := by
    rcases hprev with hnone | ⟨A0, p', hp', hAeq⟩
    · rw [hsp] at hnone
      cases hnone
    · rw [hsp] at hp'
      injection hp' with hp'
      subst hp'
      exact ⟨A0, hAeq⟩
  subst hAeq
  obtain ⟨S', hrest, hmc2⟩ : ∃ T, ChainSeg h.mem hd.next T none ∧ S = cur :: T := by
    cases hS with
    | cons hm hr =>
      rename_i hd2 S2
      rw [hmc] at hm
      injection hm with hm
      subst hm
      exact ⟨S2, hr, rfl⟩
  subst hmc2
  have hqe : h.grayQueue = [] := hwf.grayEmpty (Or.inr hph)
  have hdisj : List.Disjoint (A0 ++ [p]) (cur :: S') := List.disjoint_of_nodup_append hnd
  have hpA : p ∈ A0 ++ [p] := List.mem_append_right A0 (List.mem_singleton_self p)
  have hpcons : p ∉ cur :: S' := fun hin => hdisj hpA hin
  have hpcur : p ≠ cur := fun he => hpcons (he ▸ List.mem_cons_self cur S')
  have hpS' : p ∉ S' := fun hin => hpcons (List.mem_cons_of_mem cur hin)
  have hcurA : cur ∉ A0 ++ [p] := fun hin => hdisj hin (List.mem_cons_self cur S')
  have hndS : (cur :: S').Nodup := hnd.of_append_right
  have hcurS' : cur ∉ S' := (List.nodup_cons.mp hndS).1
  have hndA : (A0 ++ [p]).Nodup := hnd.of_append_left
  have hpA0 : p ∉ A0 := by
    intro hin
    exact List.disjoint_of_nodup_append hndA hin (List.mem_singleton_self p)
  -- split A at p
  obtain ⟨mid, hA0, hPseg⟩ :=
    (chainSeg_append_iff h.mem A0 [p] h.allObjects (some cur)).mp hA
  obtain ⟨hmid, hp, hmp, hpnext⟩ :
      mid = some p ∧ ∃ hp2, h.mem p = some hp2 ∧ hp2.next = some cur := by
    cases hPseg with
    | cons hm hr =>
      rename_i hd2
      refine ⟨rfl, hd2, hm, ?_⟩
      rw [chainSeg_nil_iff] at hr
      exact hr
  subst hmid
  set m2 : Mem := (h.mem.setNext p hd.next).del cur with hm2
  have hm2p : m2 p = some { hp with next := hd.next } := by
    rw [hm2, Mem.del_other _ cur p hpcur, Mem.setNext_self, hmp]
    rfl
  have hm2other : ∀ j, j ≠ cur → j ≠ p → m2 j = h.mem j := by
    intro j hjc hjp
    rw [hm2, Mem.del_other _ cur j hjc, Mem.setNext_other h.mem p j hd.next hjp]
  have hm2cur : m2 cur = none := by
    rw [hm2, Mem.del_self]
  have hm2colors : ∀ j, j ≠ cur → (m2 j).map GcHeader.color = (h.mem j).map GcHeader.color := by
    intro j hjc
    rw [hm2, Mem.del_other _ cur j hjc, Mem.setNext_color_map]
  have hA02 : ChainSeg m2 h.allObjects A0 (some p) := by
    refine chainSeg_of_next_agree ?_ hA0
    intro j hj
    have hjp : j ≠ p := fun he => hpA0 (he ▸ hj)
    have hjc : j ≠ cur := fun he => hcurA (he ▸ List.mem_append_left [p] hj)
    rw [hm2other j hjc hjp]
  have hseg2 : ChainSeg m2 (some p) [p] hd.next := by
    refine ChainSeg.cons hm2p ?_
    exact ChainSeg.nil m2 hd.next
  have hA2 : ChainSeg m2 h.allObjects (A0 ++ [p]) hd.next :=
    (chainSeg_append_iff m2 A0 [p] h.allObjects hd.next).mpr ⟨some p, hA02, hseg2⟩
  have hrest2 : ChainSeg m2 hd.next S' none := by
    refine chainSeg_of_next_agree ?_ hrest
    intro j hj
    have hjc : j ≠ cur := fun he => hcurS' (he ▸ hj)
    have hjp : j ≠ p := fun he => hpS' (he ▸ hj)
    rw [hm2other j hjc hjp]
  have hchain2 : ChainIs m2 h.allObjects ((A0 ++ [p]) ++ S') :=
    (chainSeg_append_iff m2 (A0 ++ [p]) S' h.allObjects none).mpr ⟨hd.next, hA2, hrest2⟩
  have hsub : ((A0 ++ [p]) ++ S').Sublist ((A0 ++ [p]) ++ cur :: S') :=
    List.Sublist.append_left (List.sublist_cons_self cur S') (A0 ++ [p])
  have hnd2 : ((A0 ++ [p]) ++ S').Nodup := List.Nodup.sublist hsub hnd
  refine ⟨⟨?_, ?_, ?_, ?_, ?_, ?_⟩, hph, ?_, ?_⟩
  · exact ⟨(A0 ++ [p]) ++ S', hchain2, hnd2⟩
  · intro j hdj hmj
    have hmj' : m2 j = some hdj := hmj
    by_cases hjc : j = cur
    · subst hjc
      rw [hm2cur] at hmj'
      cases hmj'
    · by_cases hjp : j = p
      · subst hjp
        exact hwf.fresh j hp hmp
      · rw [hm2other j hjc hjp] at hmj'
        exact hwf.fresh j hdj hmj'
  · intro j hj
    have hj' : j ∈ h.grayQueue := hj
    rw [hqe] at hj'
    cases hj'
  · show h.grayQueue.Nodup
    exact hwf.grayNodup
  · intro _
    exact hqe
  · intro _
    refine ⟨A0 ++ [p], S', hA2, hrest2, hnd2, Or.inr ⟨A0, p, hsp, rfl⟩⟩
  · intro i hpi
    obtain ⟨hdi, hmi, hdisji⟩ := hpi
    have hicur : i ≠ cur := by
      intro he
      have hmi2 : h.mem cur = some hdi := he ▸ hmi
      rw [hmc] at hmi2
      injection hmi2 with he2
      rcases hdisji with hcol | ⟨_, hforall⟩
      · rw [he2] at hcw
        exact hcol hcw
      · refine hforall (cur :: S') (by rw [hsc]; exact hS) ?_
        rw [he]
        exact List.mem_cons_self cur S'
    have hnotS' : (¬ hdi.color = GcColor.White) ∨ i ∉ cur :: S' := by
      rcases hdisji with hcol | ⟨_, hforall⟩
      · exact Or.inl hcol
      · exact Or.inr (hforall (cur :: S') (by rw [hsc]; exact hS))
    by_cases hip : i = p
    · have hmi2 : h.mem p = some hdi := hip ▸ hmi
      rw [hmp] at hmi2
      injection hmi2 with he2
      refine ⟨{ hp with next := hd.next }, by rw [hip]; exact hm2p, ?_⟩
      rcases hnotS' with hcol | hnotin
      · left
        show hp.color ≠ GcColor.White
        rw [he2]
        exact hcol
      · refine Or.inr ⟨hph, ?_⟩
        intro S2 hS2
        have heq : S2 = S' := chainIs_unique hS2 hrest2
        rw [heq]
        exact fun hin => hnotin (List.mem_cons_of_mem cur hin)
    · refine ⟨hdi, ?_, ?_⟩
      · show m2 i = some hdi
        rw [hm2other i hicur hip]
        exact hmi
      rcases hnotS' with hcol | hnotin
      · exact Or.inl hcol
      · refine Or.inr ⟨hph, ?_⟩
        intro S2 hS2
        have heq : S2 = S' := chainIs_unique hS2 hrest2
        rw [heq]
        exact fun hin => hnotin (List.mem_cons_of_mem cur hin)
  · intro hpend L2 hL2 j hj
    have hL2' : L2 = (A0 ++ [p]) ++ S' := chainIs_unique hL2 hchain2
    subst hL2'
    have hLold : ChainIs h.mem h.allObjects ((A0 ++ [p]) ++ cur :: S') :=
      (chainSeg_append_iff h.mem (A0 ++ [p]) (cur :: S') h.allObjects none).mpr
        ⟨some cur, hA, hS⟩
    have hjold : j ∈ (A0 ++ [p]) ++ cur :: S' := hsub.mem hj
    have hold := hpend ((A0 ++ [p]) ++ cur :: S') hLold j hjold
    have hjcur : j ≠ cur := by
      intro he
      subst he
      rcases List.mem_append.mp hj with hin | hin
      · exact hcurA hin
      · exact hcurS' hin
    rcases hold with hwhite | ⟨S2, hS2, hjS2⟩
    · left
      show (m2 j).map GcHeader.color = some GcColor.White
      rw [hm2colors j hjcur]
      exact hwhite
    · have heq : S2 = cur :: S' := by
        refine chainIs_unique hS2 ?_
        rw [hsc]
        exact hS
      subst heq
      have hjS' : j ∈ S' := by
        rcases List.mem_cons.mp hjS2 with h1 | h1
        · exact absurd h1 hjcur
        · exact h1
      exact Or.inr ⟨S', hrest2, hjS'⟩

theorem sweepIterFreedHead (h : Heap) (cur : Nat) (hd : GcHeader) (hwf : WF h)
    (hph : h.phase = GcPhase.Sweeping) (hsc : h.sweepCurrent = some cur)
    (hmc : h.mem cur = some hd) (hcw : hd.color = GcColor.White)
    (hsp : h.sweepPrev = none) :
    WF (sweepFreedHead h cur hd) ∧
      (sweepFreedHead h cur hd).phase = GcPhase.Sweeping ∧
      (∀ i, ProtectedId h i → ProtectedId (sweepFreedHead h cur hd) i) ∧
      (SweepPending h → SweepPending (sweepFreedHead h cur hd)) := by
  obtain ⟨A, S, hA, hS, hnd, hprev⟩ := hwf.sweep hph
  rw [hsc] at hA hS
  obtain ⟨S', hrest, hmc2⟩ : ∃ T, ChainSeg h.mem hd.next T none ∧ S = cur :: T := by
    cases hS with
    | cons hm hr =>
      rename_i hd2 S2
      rw [hmc] at hm
      injection hm with hm
      subst hm
      exact ⟨S2, hr, rfl⟩
  subst hmc2
  have hqe : h.grayQueue = [] := hwf.grayEmpty (Or.inr hph)
  have hdisj : List.Disjoint A (cur :: S') := List.disjoint_of_nodup_append hnd
  have hcurA : cur ∉ A := fun hin => hdisj hin (List.mem_cons_self cur S')
  have hndS : (cur :: S').Nodup := hnd.of_append_right
  have hcurS' : cur ∉ S' := (List.nodup_cons.mp hndS).1
  set m2 : Mem := h.mem.del cur with hm2
  have hm2other : ∀ j, j ≠ cur → m2 j = h.mem j := by
    intro j hjc
    rw [hm2, Mem.del_other _ cur j hjc]
  have hm2cur : m2 cur = none := by
    rw [hm2, Mem.del_self]
  have hrest2 : ChainSeg m2 hd.next S' none := by
    refine chainSeg_of_next_agree ?_ hrest
    intro j hj
    have hjc : j ≠ cur := fun he => hcurS' (he ▸ hj)
    rw [hm2other j hjc]
  have hnd2 : S'.Nodup := (List.nodup_cons.mp hndS).2
  refine ⟨⟨?_, ?_, ?_, ?_, ?_, ?_⟩, hph, ?_, ?_⟩
  · exact ⟨S', hrest2, hnd2⟩
  · intro j hdj hmj
    have hmj' : m2 j = some hdj := hmj
    by_cases hjc : j = cur
    · subst hjc
      rw [hm2cur] at hmj'
      cases hmj'
    · rw [hm2other j hjc] at hmj'
      exact hwf.fresh j hdj hmj'
  · intro j hj
    have hj' : j ∈ h.grayQueue := hj
    rw [hqe] at hj'
    cases hj'
  · show h.grayQueue.Nodup
    exact hwf.grayNodup
  · intro _
    exact hqe
  · intro _
    refine ⟨[], S', ChainSeg.nil m2 hd.next, hrest2, ?_, Or.inl hsp⟩
    show ([] ++ S').Nodup
    rw [List.nil_append]
    exact hnd2
  · intro i hpi
    obtain ⟨hdi, hmi, hdisji⟩ := hpi
    have hicur : i ≠ cur := by
      intro he
      have hmi2 : h.mem cur = some hdi := he ▸ hmi
      rw [hmc] at hmi2
      injection hmi2 with he2
      rcases hdisji with hcol | ⟨_, hforall⟩
      · rw [he2] at hcw
        exact hcol hcw
      · refine hforall (cur :: S') (by rw [hsc]; exact hS) ?_
        rw [he]
        exact List.mem_cons_self cur S'
    refine ⟨hdi, ?_, ?_⟩
    · show m2 i = some hdi
      rw [hm2other i hicur]
      exact hmi
    rcases hdisji with hcol | ⟨_, hforall⟩
    · exact Or.inl hcol
    · refine Or.inr ⟨hph, ?_⟩
      intro S2 hS2
      have heq : S2 = S' := chainIs_unique hS2 hrest2
      rw [heq]
      intro hin
      exact hforall (cur :: S') (by rw [hsc]; exact hS) (List.mem_cons_of_mem cur hin)
  · intro hpend L2 hL2 j hj
    have hL2' : L2 = S' := chainIs_unique hL2 hrest2
    rw [hL2'] at hj
    have hLold : ChainIs h.mem h.allObjects (A ++ cur :: S') :=
      (chainSeg_append_iff h.mem A (cur :: S') h.allObjects none).mpr ⟨some cur, hA, hS⟩
    have hjold : j ∈ A ++ cur :: S' :=
      List.mem_append_right A (List.mem_cons_of_mem cur hj)
    have hold := hpend (A ++ cur :: S') hLold j hjold
    have hjcur : j ≠ cur := fun he => hcurS' (he ▸ hj)
    rcases hold with hwhite | ⟨S2, hS2, hjS2⟩
    · left
      show (m2 j).map GcHeader.color = some GcColor.White
      rw [hm2other j hjcur]
      exact hwhite
    · have heq : S2 = cur :: S' := by
        refine chainIs_unique hS2 ?_
        rw [hsc]
        exact hS
      subst heq
      have hjS' : j ∈ S' := by
        rcases List.mem_cons.mp hjS2 with h1 | h1
        · exact absurd h1 hjcur
        · exact h1
      exact Or.inr ⟨S', hrest2, hjS'⟩

theorem finishSweep_main (h : Heap) (hwf : WF h) (hph : h.phase = GcPhase.Sweeping)
    (hsc : h.sweepCurrent = none) :
    WF h.finishSweep ∧ h.finishSweep.phase = GcPhase.Idle ∧
      (∀ i, ProtectedId h i → ∃ hd2, h.finishSweep.mem i = some hd2) ∧
      (SweepPending h →
        ∀ L, ChainIs h.finishSweep.mem h.finishSweep.allObjects L →
          ∀ j ∈ L, h.finishSweep.colorOf j = some GcColor.White) := by
  refine ⟨⟨hwf.chain, hwf.fresh, hwf.grayMem, hwf.grayNodup, ?_, ?_⟩, rfl, ?_, ?_⟩
  · intro hph'
    have hph2 : GcPhase.Idle = GcPhase.WeakRefProcessing ∨
        GcPhase.Idle = GcPhase.Sweeping := hph'
    rcases hph2 with hph2 | hph2 <;> cases hph2
  · intro hph'
    have hph2 : GcPhase.Idle = GcPhase.Sweeping := hph'
    cases hph2
  · intro i hpi
    obtain ⟨hdi, hmi, _⟩ := hpi
    exact ⟨hdi, hmi⟩
  · intro hpend L hL j hj
    have hL' : ChainIs h.mem h.allObjects L := hL
    have hold := hpend L hL' j hj
    rcases hold with hwhite | ⟨S2, hS2, hjS2⟩
    · exact hwhite
    · rw [hsc] at hS2
      have hS2nil : S2 = [] := by
        cases hS2
        rfl
      rw [hS2nil] at hjS2
      cases hjS2

theorem sweepStep_main (h : Heap) (n : Nat) (hwf : WF h)
    (hph : h.phase = GcPhase.Sweeping) :
    WF (h.sweepStep n) ∧
      ((h.sweepStep n).phase = GcPhase.Sweeping ∨
        (h.sweepStep n).phase = GcPhase.Idle) ∧
      (∀ i, ProtectedId h i →
        (∃ hd2, (h.sweepStep n).mem i = some hd2) ∧
          ((h.sweepStep n).phase = GcPhase.Idle ∨ ProtectedId (h.sweepStep n) i)) ∧
      (SweepPending h →
        ((h.sweepStep n).phase = GcPhase.Sweeping → SweepPending (h.sweepStep n)) ∧
        ((h.sweepStep n).phase = GcPhase.Idle →
          ∀ L, ChainIs (h.sweepStep n).mem (h.sweepStep n).allObjects L →
            ∀ j ∈ L, (h.sweepStep n).colorOf j = some GcColor.White)) := by
  induction n generalizing h with
  | zero =>
    refine ⟨hwf, Or.inl hph, ?_, ?_⟩
    · intro i hpi
      obtain ⟨hdi, hmi, hds⟩ := hpi
      exact ⟨⟨hdi, hmi⟩, Or.inr ⟨hdi, hmi, hds⟩⟩
    · intro hpend
      refine ⟨fun _ => hpend, ?_⟩
      intro hid
      have hid2 : h.phase = GcPhase.Idle := hid
      rw [hph] at hid2
      cases hid2
  | succ n ih =>
    simp only [Heap.sweepStep]
    split
    · rename_i hsc
      obtain ⟨fwf, fph, fprot, fpend⟩ := finishSweep_main h hwf hph hsc
      refine ⟨fwf, Or.inr fph, ?_, ?_⟩
      · intro i hpi
        exact ⟨fprot i hpi, Or.inl fph⟩
      · intro hpend
        refine ⟨?_, fun _ => fpend hpend⟩
        intro hsw
        rw [fph] at hsw
        cases hsw
    · rename_i cur hsc
      split
      · rename_i hmc
        refine ⟨hwf, Or.inl hph, ?_, ?_⟩
        · intro i hpi
          obtain ⟨hdi, hmi, hds⟩ := hpi
          exact ⟨⟨hdi, hmi⟩, Or.inr ⟨hdi, hmi, hds⟩⟩
        · intro hpend
          refine ⟨fun _ => hpend, ?_⟩
          intro hid
          have hid2 : h.phase = GcPhase.Idle := hid
          rw [hph] at hid2
          cases hid2
      · rename_i hd hmc
        split
        · rename_i hcw
          split
          · rename_i p hsp
            obtain ⟨kwf, kph, kprot, kpend⟩ :=
              sweepIterFreedPrev h cur p hd hwf hph hsc hmc hcw hsp
            obtain ⟨mwf, mph, mprot, mpend⟩ := ih (sweepFreedPrev h cur p hd) kwf kph
            exact ⟨mwf, mph, fun i hpi => mprot i (kprot i hpi),
              fun hpend => mpend (kpend hpend)⟩
          · rename_i hsp
            obtain ⟨kwf, kph, kprot, kpend⟩ :=
              sweepIterFreedHead h cur hd hwf hph hsc hmc hcw hsp
            obtain ⟨mwf, mph, mprot, mpend⟩ := ih (sweepFreedHead h cur hd) kwf kph
            exact ⟨mwf, mph, fun i hpi => mprot i (kprot i hpi),
              fun hpend => mpend (kpend hpend)⟩
        · rename_i hcw
          obtain ⟨kwf, kph, kprot, kpend⟩ :=
            sweepIterKept h cur hd hwf hph hsc hmc hcw
          obtain ⟨mwf, mph, mprot, mpend⟩ := ih (sweepKept h cur hd) kwf kph
          exact ⟨mwf, mph, fun i hpi => mprot i (kprot i hpi),
            fun hpend => mpend (kpend hpend)⟩


theorem allocWithSize_eq (ctx : GcContext) (size : Nat) (h : Heap) :
    h.allocWithSize ctx true size =
      (allocFinish size (allocStepped ctx h), some (allocStepped ctx h).nextAddr) := by
  rfl

theorem allocWithSize_false_eq (ctx : GcContext) (size : Nat) (h : Heap) :
    h.allocWithSize ctx false size = (allocStepped ctx h, none) := by
  rfl

theorem gcStep_nextAddr (ctx : GcContext) (h : Heap) :
    (h.gcStep ctx).1.nextAddr = h.nextAddr := by
  unfold Heap.gcStep
  cases hph : h.phase
  · rfl
  · rfl
  · exact (markStep_fields ctx h defaultMarkStepSize).1
  · rfl
  · exact (sweepStep_fields h defaultSweepStepSize).1

theorem gcStep_queue_sub (ctx : GcContext) (h : Heap) (j : Nat)
    (hj : j ∈ (h.gcStep ctx).1.grayQueue) :
    j ∈ h.grayQueue ∨ h.colorOf j = some GcColor.White := by
  revert hj
  unfold Heap.gcStep
  cases hph : h.phase
  · exact fun hj => Or.inl hj
  · exact fun hj => Or.inl hj
  · exact fun hj => markStep_queue_sub ctx h defaultMarkStepSize j hj
  · exact fun hj => Or.inl hj
  · intro hj
    rw [(sweepStep_fields h defaultSweepStepSize).2] at hj
    exact Or.inl hj

theorem gcStep_wf (ctx : GcContext) (h : Heap) (hwf : WF h) : WF (h.gcStep ctx).1 := by
  unfold Heap.gcStep
  cases hph : h.phase
  · exact hwf
  · refine ⟨hwf.chain, hwf.fresh, hwf.grayMem, hwf.grayNodup, ?_, ?_⟩
    · intro hph'
      have hph2 : GcPhase.Marking = GcPhase.WeakRefProcessing ∨
          GcPhase.Marking = GcPhase.Sweeping := hph'
      rcases hph2 with hph2 | hph2 <;> cases hph2
    · intro hph'
      have hph2 : GcPhase.Marking = GcPhase.Sweeping := hph'
      cases hph2
  · exact markStep_wf ctx h defaultMarkStepSize hph hwf
  · have hqe : h.grayQueue = [] := hwf.grayEmpty (Or.inl hph)
    obtain ⟨L, hL, hnd⟩ := hwf.chain
    refine ⟨⟨L, hL, hnd⟩, hwf.fresh, hwf.grayMem, hwf.grayNodup, fun _ => hqe, ?_⟩
    intro _
    refine ⟨[], L, ChainSeg.nil h.mem h.allObjects, hL, ?_, Or.inl rfl⟩
    show ([] ++ L).Nodup
    rw [List.nil_append]
    exact hnd
  · exact (sweepStep_main h defaultSweepStepSize hwf hph).1

theorem gcStep_protect (ctx : GcContext) (h : Heap) (i : Nat) (hwf : WF h)
    (hph : h.phase ≠ GcPhase.Idle) (hpi : ProtectedId h i) :
    (∃ hd2, (h.gcStep ctx).1.mem i = some hd2) ∧
      ((h.gcStep ctx).1.phase = GcPhase.Idle ∨ ProtectedId (h.gcStep ctx).1 i) := by
  obtain ⟨hdi, hmi, hds⟩ := hpi
  unfold Heap.gcStep
  cases hphc : h.phase
  · exact absurd hphc hph
  · -- RootScanning: heap unchanged except phase := Marking
    have hcol : hdi.color ≠ GcColor.White := by
      rcases hds with hcol | ⟨hsw, _⟩
      · exact hcol
      · rw [hphc] at hsw
        cases hsw
    exact ⟨⟨hdi, hmi⟩, Or.inr ⟨hdi, hmi, Or.inl hcol⟩⟩
  · -- Marking: markStep
    have hcol : hdi.color ≠ GcColor.White := by
      rcases hds with hcol | ⟨hsw, _⟩
      · exact hcol
      · rw [hphc] at hsw
        cases hsw
    have hsome : ((h.markStep ctx defaultMarkStepSize).mem i).isSome = true := by
      rw [markStep_isSome ctx h defaultMarkStepSize i, hmi]
      rfl
    obtain ⟨hd2, hm2⟩ := Option.isSome_iff_exists.mp hsome
    refine ⟨⟨hd2, hm2⟩, Or.inr ⟨hd2, hm2, Or.inl ?_⟩⟩
    intro hw
    have hcw : (h.markStep ctx defaultMarkStepSize).colorOf i = some GcColor.White := by
      show ((h.markStep ctx defaultMarkStepSize).mem i).map GcHeader.color = _
      rw [hm2]
      show some hd2.color = some GcColor.White
      rw [hw]
    have := markStep_white_mono ctx h defaultMarkStepSize i hcw
    rw [Heap.colorOf, hmi] at this
    injection this with this
    exact hcol this
  · -- WeakRefProcessing step: mem unchanged, phase := Sweeping
    have hcol : hdi.color ≠ GcColor.White := by
      rcases hds with hcol | ⟨hsw, _⟩
      · exact hcol
      · rw [hphc] at hsw
        cases hsw
    exact ⟨⟨hdi, hmi⟩, Or.inr ⟨hdi, hmi, Or.inl hcol⟩⟩
  · -- Sweeping
    exact (sweepStep_main h defaultSweepStepSize hwf hphc).2.2.1 i ⟨hdi, hmi, hds⟩

theorem gcStep_whiteInv (ctx : GcContext) (h : Heap) (hwf : WF h)
    (hinv : CycleWhiteInv h) : CycleWhiteInv (h.gcStep ctx).1 := by
  unfold Heap.gcStep
  cases hphc : h.phase
  · exact hinv
  · constructor
    · intro hph'
      have hph2 : GcPhase.Marking = GcPhase.Sweeping := hph'
      cases hph2
    · intro hph'
      have hph2 : GcPhase.Marking = GcPhase.Idle := hph'
      cases hph2
  · constructor
    · intro hph'
      rcases markStep_phase ctx h defaultMarkStepSize with hsame | ⟨hweak, _⟩
      · rw [hsame, hphc] at hph'
        cases hph'
      · rw [hweak] at hph'
        cases hph'
    · intro hph'
      rcases markStep_phase ctx h defaultMarkStepSize with hsame | ⟨hweak, _⟩
      · rw [hsame, hphc] at hph'
        cases hph'
      · rw [hweak] at hph'
        cases hph'
  · constructor
    · intro _ L hL j hj
      exact Or.inr ⟨L, hL, hj⟩
    · intro hph'
      have hph2 : GcPhase.Sweeping = GcPhase.Idle := hph'
      cases hph2
  · have hmain := (sweepStep_main h defaultSweepStepSize hwf hphc).2.2.2 (hinv.1 hphc)
    exact ⟨hmain.1, hmain.2⟩

theorem startGc_not_idle (ctx : GcContext) (h : Heap) (hph : h.phase ≠ GcPhase.Idle) :
    h.startGc ctx = h := by
  unfold Heap.startGc
  rw [if_pos]
  unfold Heap.gcInProgress
  exact decide_eq_true hph

theorem startGc_wf (ctx : GcContext) (h : Heap) (hwf : WF h) : WF (h.startGc ctx) := by
  by_cases hph : h.phase = GcPhase.Idle
  · have hwf1 : WF ({ h with phase := GcPhase.RootScanning, bytesFreedThisCycle := 0, objectsFreedThisCycle := 0 } : Heap) := by
      refine ⟨hwf.chain, hwf.fresh, hwf.grayMem, hwf.grayNodup, ?_, ?_⟩
      · intro hph'
        have hph2 : GcPhase.RootScanning = GcPhase.WeakRefProcessing ∨
            GcPhase.RootScanning = GcPhase.Sweeping := hph'
        rcases hph2 with hph2 | hph2 <;> cases hph2
      · intro hph'
        have hph2 : GcPhase.RootScanning = GcPhase.Sweeping := hph'
        cases hph2
    have hwf2 : WF (({ h with phase := GcPhase.RootScanning, bytesFreedThisCycle := 0, objectsFreedThisCycle := 0 } : Heap).markGrayList ctx.roots) :=
      markGrayList_wf _ ctx.roots (Or.inl rfl) hwf1
    unfold Heap.startGc
    rw [if_neg (by unfold Heap.gcInProgress; simp [hph])]
    refine ⟨hwf2.chain, hwf2.fresh, hwf2.grayMem, hwf2.grayNodup, ?_, ?_⟩
    · intro hph'
      have hph2 : GcPhase.Marking = GcPhase.WeakRefProcessing ∨
          GcPhase.Marking = GcPhase.Sweeping := hph'
      rcases hph2 with hph2 | hph2 <;> cases hph2
    · intro hph'
      have hph2 : GcPhase.Marking = GcPhase.Sweeping := hph'
      cases hph2
  · rw [startGc_not_idle ctx h hph]
    exact hwf

theorem startGc_queue_sub (ctx : GcContext) (h : Heap) (j : Nat)
    (hj : j ∈ (h.startGc ctx).grayQueue) :
    j ∈ h.grayQueue ∨ h.colorOf j = some GcColor.White := by
  by_cases hph : h.phase = GcPhase.Idle
  · revert hj
    unfold Heap.startGc
    rw [if_neg (by unfold Heap.gcInProgress; simp [hph])]
    intro hj
    have hj1 : j ∈ (({ h with phase := GcPhase.RootScanning, bytesFreedThisCycle := 0, objectsFreedThisCycle := 0 } : Heap).markGrayList ctx.roots).grayQueue := hj
    exact markGrayList_queue_sub ({ h with phase := GcPhase.RootScanning, bytesFreedThisCycle := 0, objectsFreedThisCycle := 0 } : Heap) ctx.roots j hj1
  · rw [startGc_not_idle ctx h hph] at hj
    exact Or.inl hj

theorem startGc_nextAddr (ctx : GcContext) (h : Heap) :
    (h.startGc ctx).nextAddr = h.nextAddr := by
  unfold Heap.startGc
  by_cases hgp : h.gcInProgress
  · rw [if_pos hgp]
  · rw [if_neg hgp]
    exact (markGrayList_fields _ ctx.roots).2.1

theorem allocFinish_wf (size : Nat) (h1 : Heap) (hwf : WF h1) :
    WF (allocFinish size h1) := by
  obtain ⟨L, hL, hnd⟩ := hwf.chain
  have hfresh : ∀ j ∈ L, j ≠ h1.nextAddr := by
    intro j hj he
    obtain ⟨hdj, hmj⟩ := chainSeg_mem_some hL hj
    have hlt := hwf.fresh j hdj hmj
    rw [he] at hlt
    exact Nat.lt_irrefl _ hlt
  have hmem_other : ∀ j, j ≠ h1.nextAddr →
      (allocFinish size h1).mem j = h1.mem j := by
    intro j hj
    exact Mem.set_other h1.mem h1.nextAddr j _ hj
  have hmem_self : (allocFinish size h1).mem h1.nextAddr = some
      { color := if h1.gcInProgress then GcColor.Black else GcColor.White
        allocSize := size
        next := h1.allObjects } :=
    Mem.set_self h1.mem h1.nextAddr _
  have hchain2 : ChainIs (allocFinish size h1).mem (some h1.nextAddr) (h1.nextAddr :: L) := by
    refine ChainSeg.cons hmem_self ?_
    show ChainSeg (allocFinish size h1).mem h1.allObjects L none
    refine chainSeg_of_next_agree ?_ hL
    intro j hj
    rw [hmem_other j (hfresh j hj)]
  have hmemmem : ∀ j hdj, h1.mem j = some hdj → j ≠ h1.nextAddr := by
    intro j hdj hmj he
    have hlt := hwf.fresh j hdj hmj
    rw [he] at hlt
    exact Nat.lt_irrefl _ hlt
  refine ⟨?_, ?_, ?_, ?_, ?_, ?_⟩
  · refine ⟨h1.nextAddr :: L, hchain2, List.nodup_cons.mpr ⟨?_, hnd⟩⟩
    intro hin
    exact hfresh _ hin rfl
  · intro j hdj hmj
    show j < h1.nextAddr + 1
    by_cases hj : j = h1.nextAddr
    · rw [hj]
      exact Nat.lt_succ_self _
    · rw [hmem_other j hj] at hmj
      exact Nat.lt_succ_of_lt (hwf.fresh j hdj hmj)
  · intro j hj
    have hj' : j ∈ h1.grayQueue := hj
    obtain ⟨hdj, hmj, hcj⟩ := hwf.grayMem j hj'
    refine ⟨hdj, ?_, hcj⟩
    rw [hmem_other j (hmemmem j hdj hmj)]
    exact hmj
  · show h1.grayQueue.Nodup
    exact hwf.grayNodup
  · intro hph'
    exact hwf.grayEmpty hph'
  · intro hph'
    have hsw : h1.phase = GcPhase.Sweeping := hph'
    obtain ⟨A, S, hA, hS, hnd2, hprev⟩ := hwf.sweep hsw
    have hAmem : ∀ j ∈ A, j ≠ h1.nextAddr := by
      intro j hj
      obtain ⟨hdj, hmj⟩ := chainSeg_mem_some hA hj
      exact hmemmem j hdj hmj
    have hSmem : ∀ j ∈ S, j ≠ h1.nextAddr := by
      intro j hj
      obtain ⟨hdj, hmj⟩ := chainSeg_mem_some hS hj
      exact hmemmem j hdj hmj
    have hA2 : ChainSeg (allocFinish size h1).mem h1.allObjects A h1.sweepCurrent := by
      refine chainSeg_of_next_agree ?_ hA
      intro j hj
      rw [hmem_other j (hAmem j hj)]
    have hS2 : ChainIs (allocFinish size h1).mem h1.sweepCurrent S := by
      refine chainSeg_of_next_agree ?_ hS
      intro j hj
      rw [hmem_other j (hSmem j hj)]
    refine ⟨h1.nextAddr :: A, S, ?_, hS2, ?_, ?_⟩
    · exact ChainSeg.cons hmem_self hA2
    · show (h1.nextAddr :: (A ++ S)).Nodup
      refine List.nodup_cons.mpr ⟨?_, hnd2⟩
      intro hin
      rcases List.mem_append.mp hin with hin | hin
      · exact hAmem _ hin rfl
      · exact hSmem _ hin rfl
    · rcases hprev with hnone | ⟨A0, p, hsp, hAeq⟩
      · exact Or.inl hnone
      · refine Or.inr ⟨h1.nextAddr :: A0, p, hsp, ?_⟩
        rw [hAeq]
        rfl

theorem allocFinish_protect (size : Nat) (h1 : Heap) (i : Nat) (hwf : WF h1)
    (hpi : ProtectedId h1 i) : ProtectedId (allocFinish size h1) i := by
  obtain ⟨hdi, hmi, hds⟩ := hpi
  have hii : i ≠ h1.nextAddr := by
    intro he
    have hlt := hwf.fresh i hdi hmi
    rw [he] at hlt
    exact Nat.lt_irrefl _ hlt
  refine ⟨hdi, ?_, ?_⟩
  · show h1.mem.set h1.nextAddr _ i = some hdi
    rw [Mem.set_other h1.mem h1.nextAddr i _ hii]
    exact hmi
  · rcases hds with hcol | ⟨hsw, hforall⟩
    · exact Or.inl hcol
    · refine Or.inr ⟨hsw, ?_⟩
      intro S hS
      obtain ⟨A, S0, hA, hS0, hnd0, _⟩ := hwf.sweep hsw
      have hS0' : ChainIs (allocFinish size h1).mem h1.sweepCurrent S0 := by
        refine chainSeg_of_next_agree ?_ hS0
        intro j hj
        obtain ⟨hdj, hmj⟩ := chainSeg_mem_some hS0 hj
        have hj' : j ≠ h1.nextAddr := by
          intro he
          have hlt := hwf.fresh j hdj hmj
          rw [he] at hlt
          exact Nat.lt_irrefl _ hlt
        have hmo : (allocFinish size h1).mem j = h1.mem j :=
          Mem.set_other h1.mem h1.nextAddr j _ hj'
        rw [hmo]
      have heq : S = S0 := chainIs_unique hS hS0'
      rw [heq]
      exact hforall S0 hS0

theorem wf_new : WF Heap.new := by
  refine ⟨⟨[], ChainSeg.nil _ none, List.nodup_nil⟩, ?_, ?_, List.nodup_nil, ?_, ?_⟩
  · intro i hd hmi
    cases hmi
  · intro j hj
    cases hj
  · intro hph'
    have hph2 : GcPhase.Idle = GcPhase.WeakRefProcessing ∨
        GcPhase.Idle = GcPhase.Sweeping := hph'
    rcases hph2 with hph2 | hph2 <;> cases hph2
  · intro hph'
    have hph2 : GcPhase.Idle = GcPhase.Sweeping := hph'
    cases hph2

theorem exec_wf (ctx : GcContext) (h : Heap) (op : Op) (hwf : WF h) :
    WF (ctx.exec h op) := by
  cases op with
  | alloc size =>
    show WF (h.allocWithSize ctx true size).1
    rw [allocWithSize_eq]
    refine allocFinish_wf size _ ?_
    unfold allocStepped
    by_cases hgp : h.gcInProgress
    · rw [if_pos hgp]
      exact gcStep_wf ctx h hwf
    · rw [if_neg hgp]
      exact hwf
  | allocFail size =>
    show WF (h.allocWithSize ctx false size).1
    rw [allocWithSize_false_eq]
    unfold allocStepped
    by_cases hgp : h.gcInProgress
    · rw [if_pos hgp]
      exact gcStep_wf ctx h hwf
    · rw [if_neg hgp]
      exact hwf
  | step => exact gcStep_wf ctx h hwf
  | barrier t =>
    cases t with
    | none => exact hwf
    | some j =>
      show WF (if h.isMarking then h.markGrayRaw j else h)
      by_cases him : h.isMarking
      · rw [if_pos him]
        exact markGrayRaw_wf h j (of_decide_eq_true him) hwf
      · rw [if_neg him]
        exact hwf
  | start => exact startGc_wf ctx h hwf

theorem exec_protect (ctx : GcContext) (h : Heap) (op : Op) (i : Nat) (hwf : WF h)
    (hph : h.phase ≠ GcPhase.Idle) (hpi : ProtectedId h i) :
    (∃ hd2, (ctx.exec h op).mem i = some hd2) ∧
      ((ctx.exec h op).phase = GcPhase.Idle ∨ ProtectedId (ctx.exec h op) i) := by
  have hgp : h.gcInProgress = true := decide_eq_true hph
  cases op with
  | alloc size =>
    have hstep : allocStepped ctx h = (h.gcStep ctx).1 := by
      unfold allocStepped
      rw [if_pos hgp]
    show (∃ hd2, (allocFinish size (allocStepped ctx h)).mem i = some hd2) ∧
      ((allocFinish size (allocStepped ctx h)).phase = GcPhase.Idle ∨
        ProtectedId (allocFinish size (allocStepped ctx h)) i)
    rw [hstep]
    obtain ⟨⟨hd2, hm2⟩, hdisj⟩ := gcStep_protect ctx h i hwf hph hpi
    have hwfs : WF (h.gcStep ctx).1 := gcStep_wf ctx h hwf
    have hii : i ≠ (h.gcStep ctx).1.nextAddr := by
      intro he
      have hlt := hwfs.fresh i hd2 hm2
      rw [he] at hlt
      exact Nat.lt_irrefl _ hlt
    constructor
    · refine ⟨hd2, ?_⟩
      show (h.gcStep ctx).1.mem.set (h.gcStep ctx).1.nextAddr _ i = some hd2
      rw [Mem.set_other _ _ i _ hii]
      exact hm2
    · rcases hdisj with hid | hp
      · exact Or.inl hid
      · exact Or.inr (allocFinish_protect size (h.gcStep ctx).1 i hwfs hp)
  | allocFail size =>
    have hstep : allocStepped ctx h = (h.gcStep ctx).1 := by
      unfold allocStepped
      rw [if_pos hgp]
    show (∃ hd2, (allocStepped ctx h).mem i = some hd2) ∧
      ((allocStepped ctx h).phase = GcPhase.Idle ∨
        ProtectedId (allocStepped ctx h) i)
    rw [hstep]
    exact gcStep_protect ctx h i hwf hph hpi
  | step => exact gcStep_protect ctx h i hwf hph hpi
  | barrier t =>
    obtain ⟨hdi, hmi, hds⟩ := hpi
    cases t with
    | none => exact ⟨⟨hdi, hmi⟩, Or.inr ⟨hdi, hmi, hds⟩⟩
    | some j =>
      show (∃ hd2, (if h.isMarking then h.markGrayRaw j else h).mem i = some hd2) ∧
        ((if h.isMarking then h.markGrayRaw j else h).phase = GcPhase.Idle ∨
          ProtectedId (if h.isMarking then h.markGrayRaw j else h) i)
      by_cases him : h.isMarking
      · rw [if_pos him]
        have hphm := of_decide_eq_true him
        have hcol : hdi.color ≠ GcColor.White := by
          rcases hds with hcol | ⟨hsw, _⟩
          · exact hcol
          · rcases hphm with hr | hm
            · rw [hr] at hsw
              cases hsw
            · rw [hm] at hsw
              cases hsw
        have hsome : ((h.markGrayRaw j).mem i).isSome = true := by
          rw [markGrayRaw_isSome h j i, hmi]
          rfl
        obtain ⟨hd2, hm2⟩ := Option.isSome_iff_exists.mp hsome
        refine ⟨⟨hd2, hm2⟩, Or.inr ⟨hd2, hm2, Or.inl ?_⟩⟩
        intro hw
        have hcw : (h.markGrayRaw j).colorOf i = some GcColor.White := by
          show ((h.markGrayRaw j).mem i).map GcHeader.color = _
          rw [hm2]
          show some hd2.color = some GcColor.White
          rw [hw]
        have := markGrayRaw_white_mono h j i hcw
        rw [Heap.colorOf, hmi] at this
        injection this with this
        exact hcol this
      · rw [if_neg him]
        exact ⟨⟨hdi, hmi⟩, Or.inr ⟨hdi, hmi, hds⟩⟩
  | start =>
    obtain ⟨hdi, hmi, hds⟩ := hpi
    show (∃ hd2, (h.startGc ctx).mem i = some hd2) ∧
      ((h.startGc ctx).phase = GcPhase.Idle ∨ ProtectedId (h.startGc ctx) i)
    rw [startGc_not_idle ctx h hph]
    exact ⟨⟨hdi, hmi⟩, Or.inr ⟨hdi, hmi, hds⟩⟩

theorem survivesCycle_of_protected (ctx : GcContext) (i : Nat) :
    ∀ (ops : List Op) (h : Heap), WF h →
      (h.phase = GcPhase.Idle ∨ ProtectedId h i) → SurvivesCycle ctx h i ops := by
  intro ops
  induction ops with
  | nil =>
    intro h _ _
    trivial
  | cons op ops ih =>
    intro h hwf hpi
    rcases hpi with hid | hpi
    · exact Or.inl hid
    · by_cases hph : h.phase = GcPhase.Idle
      · exact Or.inl hph
      · obtain ⟨hsome, hnext⟩ := exec_protect ctx h op i hwf hph hpi
        exact Or.inr ⟨hsome, ih (ctx.exec h op) (exec_wf ctx h op hwf) hnext⟩

/-- C4: `write_barrier(target)`: when the phase is `RootScanning` or
`Marking` and the target is a non-dangling pointer whose header is
white, the target is recolored gray and pushed onto the gray queue and
nothing else changes; in every other phase, and for dangling or null
targets, `write_barrier` leaves the heap exactly unchanged. -/
theorem c4_write_barrier (h : Heap) (t : Option Nat) :
    ((h.phase = GcPhase.RootScanning ∨ h.phase = GcPhase.Marking) →
      ∀ i hd, t = some i → h.mem i = some hd → hd.color = GcColor.White →
        h.writeBarrier t =
          { h with
            mem := h.mem.setColor i GcColor.Gray
            grayQueue := i :: h.grayQueue }) ∧
    (((h.phase = GcPhase.Idle ∨ h.phase = GcPhase.WeakRefProcessing ∨
        h.phase = GcPhase.Sweeping) ∨ t = none) → h.writeBarrier t = h) := by
  constructor
  · rintro hph i hd rfl hm hc
    show (if h.isMarking then h.markGrayRaw i else h) = _
    have hmark : h.isMarking = true := decide_eq_true hph
    rw [if_pos hmark]
    unfold Heap.markGrayRaw
    rw [hm]
    simp [hc]
  · intro hcond
    cases t with
    | none => rfl
    | some i =>
      rcases hcond with hph | hnone
      · show (if h.isMarking then h.markGrayRaw i else h) = h
        rw [if_neg]
        intro hmark
        have hor := of_decide_eq_true hmark
        rcases hph with h1 | h1 | h1 <;> rcases hor with h2 | h2 <;>
          rw [h1] at h2 <;> cases h2
      · cases hnone

/-- Witness for C4 at concrete heaps: the barrier grays and enqueues the
white object 0 of `wbHeap` (phase `Marking`), and is the identity on the
idle fresh heap. -/
theorem c4_write_barrier_witness :
    wbHeap.writeBarrier (some 0) =
      { wbHeap with
        mem := wbHeap.mem.setColor 0 GcColor.Gray
        grayQueue := [0] } ∧
    Heap.new.writeBarrier (some 0) = Heap.new :=
  ⟨(c4_write_barrier wbHeap (some 0)).1 (Or.inr rfl) 0
      ⟨GcColor.White, 16, none⟩ rfl rfl rfl,
    (c4_write_barrier Heap.new (some 0)).2 (Or.inl (Or.inl rfl))⟩

set_option maxRecDepth 20000 in
/-- C5: with the default step limits of 100, collecting 10 unrooted
plain objects takes exactly 3 `gc_step` calls (phases observed:
marking, weak-ref processing, one sweep) and ends with
`num_objects = 0` and `bytes_allocated = 0`; collecting a 100-object
unrooted reference cycle executes exactly 2 sweep steps before the
phase returns to `Idle`. -/
theorem c5_literal_scenarios :
    (heap10Started.finishGc gcCtxEmpty 10).2 = 3 ∧
    (heap10Started.finishGc gcCtxEmpty 10).1.numObjects = 0 ∧
    (heap10Started.finishGc gcCtxEmpty 10).1.bytesAllocated = 0 ∧
    (heap10Started.finishGc gcCtxEmpty 10).1.phase = GcPhase.Idle ∧
    phaseTrace gcCtxEmpty 10 heap10Started =
      [GcPhase.Marking, GcPhase.WeakRefProcessing, GcPhase.Sweeping] ∧
    phaseTrace gcCtxCycle100 10 heap100Started =
      [GcPhase.Marking, GcPhase.WeakRefProcessing, GcPhase.Sweeping,
        GcPhase.Sweeping] ∧
    (heap100Started.finishGc gcCtxCycle100 10).1.numObjects = 0 ∧
    (heap100Started.finishGc gcCtxCycle100 10).1.phase = GcPhase.Idle := by
  decide

/-- C6 (counterexample): a failed allocation does not leave the heap
unchanged: called on a heap in the `Marking` phase, the allocation
returns the out-of-memory error, yet the phase has advanced to
`WeakRefProcessing` — the GC quantum runs before the system allocation
is even requested, not only on success. -/
theorem c6_failed_alloc_counterexample :
    (cexStart.allocWithSize gcCtxEmpty false 16).2 = none ∧
    cexStart.phase = GcPhase.Marking ∧
    (cexStart.allocWithSize gcCtxEmpty false 16).1.phase =
      GcPhase.WeakRefProcessing := by
  decide

/-- C6 (amended): `alloc` performs the pending GC quantum first (when a
collection is in progress) and only then requests the raw block; on
failure it returns the typed allocation error with no object created,
no counters changed and no list link — the heap is exactly the
quantum-advanced state (and exactly unchanged when the phase was
`Idle`). -/
theorem c6_failed_alloc_behavior (ctx : GcContext) (size : Nat) (h : Heap) :
    (h.phase = GcPhase.Idle → h.allocWithSize ctx false size = (h, none)) ∧
    (h.phase ≠ GcPhase.Idle →
      h.allocWithSize ctx false size = ((h.gcStep ctx).1, none)) := by
  constructor
  · intro hid
    rw [allocWithSize_false_eq]
    unfold allocStepped
    rw [if_neg]
    intro hgp
    exact (of_decide_eq_true hgp) hid
  · intro hph
    rw [allocWithSize_false_eq]
    unfold allocStepped
    have hgp : Heap.gcInProgress h = true := decide_eq_true hph
    rw [if_pos hgp]

/-- Witness for C6 at concrete heaps: a failed allocation on the fresh
idle heap is a pure error, and on a marking-phase heap it returns the
quantum-advanced heap. -/
theorem c6_failed_alloc_witness :
    Heap.new.allocWithSize gcCtxEmpty false 16 = (Heap.new, none) ∧
    cexStart.allocWithSize gcCtxEmpty false 16 =
      ((cexStart.gcStep gcCtxEmpty).1, none) :=
  ⟨(c6_failed_alloc_behavior gcCtxEmpty 16 Heap.new).1 rfl,
    (c6_failed_alloc_behavior gcCtxEmpty 16 cexStart).2 (by decide)⟩

/-- C8: calling `start_gc` while the phase is not `Idle` is a no-op
leaving the heap entirely unchanged, and calling `gc_step` while the
phase is `Idle` immediately reports the collection complete without
modifying any heap state. -/
theorem c8_start_noop_step_idle (ctx : GcContext) (h : Heap) :
    (h.phase ≠ GcPhase.Idle → h.startGc ctx = h) ∧
    (h.phase = GcPhase.Idle → h.gcStep ctx = (h, false)) := by
  constructor
  · exact startGc_not_idle ctx h
  · intro hid
    unfold Heap.gcStep
    rw [hid]

/-- Witness for C8: `start_gc` is the identity on a marking-phase heap
and `gc_step` on the fresh idle heap reports completion unchanged. -/
theorem c8_witness :
    cexStart.startGc gcCtxEmpty = cexStart ∧
    Heap.new.gcStep gcCtxEmpty = (Heap.new, false) :=
  ⟨(c8_start_noop_step_idle gcCtxEmpty cexStart).1 (by decide),
    (c8_start_noop_step_idle gcCtxEmpty Heap.new).2 rfl⟩

/-- C9: `should_gc` returns true exactly when the phase is `Idle` and
`bytes_allocated` strictly exceeds `gc_threshold`; the threshold starts
at 1 MiB, and `finish_sweep` — the end of every collection cycle —
recomputes it as the maximum of the 1 MiB default and twice the live
bytes left after the cycle's frees are subtracted. -/
theorem c9_should_gc_and_threshold (h : Heap) :
    (h.shouldGc = true ↔
      (h.phase = GcPhase.Idle ∧ h.gcThreshold < h.bytesAllocated)) ∧
    Heap.new.gcThreshold = 1024 * 1024 ∧
    h.finishSweep.gcThreshold =
      max ((h.bytesAllocated - h.bytesFreedThisCycle) * 2) (1024 * 1024) := by
  refine ⟨?_, rfl, rfl⟩
  unfold Heap.shouldGc
  rw [Bool.and_eq_true, decide_eq_true_iff, decide_eq_true_iff]
  constructor
  · rintro ⟨h1, h2⟩
    exact ⟨h2, h1⟩
  · rintro ⟨h1, h2⟩
    exact ⟨h2, h1⟩

theorem stepN_wf_inv (ctx : GcContext) (n : Nat) (h : Heap) (hwf : WF h)
    (hinv : CycleWhiteInv h) :
    WF (stepN ctx n h) ∧ CycleWhiteInv (stepN ctx n h) := by
  induction n generalizing h with
  | zero => exact ⟨hwf, hinv⟩
  | succ n ih =>
    exact ih (h.gcStep ctx).1 (gcStep_wf ctx h hwf) (gcStep_whiteInv ctx h hwf hinv)

/-- C1 (counterexample): the third allocation of the scenario is made
while the phase is `Sweeping` (not `Idle`), yet the returned object
(address 2) is white, not black, immediately after the allocation
returns — the GC quantum embedded in `alloc` completed the collection
before the header was written. -/
theorem c1_alloc_during_gc_counterexample :
    cexA2.1.phase = GcPhase.Sweeping ∧ cexA3.2 = some 2 ∧
      cexA3.1.colorOf 2 ≠ some GcColor.Black ∧
      cexA3.1.colorOf 2 = some GcColor.White := by
  decide

/-- C1 (amended): for every call to `alloc` made while the GC phase is
not `Idle`, the returned object is colored black immediately after the
allocation returns provided the embedded GC quantum did not complete
the collection (the phase is still not `Idle` afterwards); and in every
case the returned object is never freed by the remainder of the current
collection cycle, whatever operations follow, regardless of whether any
root reaches it. -/
theorem c1_alloc_during_gc_black_and_survives (ctx : GcContext) (size : Nat)
    (h : Heap) (hwf : WF h) (hph : h.phase ≠ GcPhase.Idle) :
    (h.allocWithSize ctx true size).2 = some h.nextAddr ∧
      ((h.allocWithSize ctx true size).1.phase ≠ GcPhase.Idle →
        (h.allocWithSize ctx true size).1.colorOf h.nextAddr =
          some GcColor.Black) ∧
      ∀ ops : List Op,
        SurvivesCycle ctx (h.allocWithSize ctx true size).1 h.nextAddr ops := by
  have hgp : h.gcInProgress = true := decide_eq_true hph
  have hstep : allocStepped ctx h = (h.gcStep ctx).1 := by
    unfold allocStepped
    rw [if_pos hgp]
  have haddr : (allocStepped ctx h).nextAddr = h.nextAddr := by
    rw [hstep]
    exact gcStep_nextAddr ctx h
  have hwfs : WF (allocStepped ctx h) := by
    rw [hstep]
    exact gcStep_wf ctx h hwf
  have hmemself : (allocFinish size (allocStepped ctx h)).mem
      (allocStepped ctx h).nextAddr = some
      { color := if (allocStepped ctx h).gcInProgress then GcColor.Black
          else GcColor.White
        allocSize := size
        next := (allocStepped ctx h).allObjects } :=
    Mem.set_self (allocStepped ctx h).mem (allocStepped ctx h).nextAddr _
  refine ⟨?_, ?_, ?_⟩
  · show some (allocStepped ctx h).nextAddr = some h.nextAddr
    rw [haddr]
  · intro hph'
    have hph2 : (allocFinish size (allocStepped ctx h)).phase ≠ GcPhase.Idle := hph'
    have hgp2 : (allocStepped ctx h).gcInProgress = true := decide_eq_true hph2
    show (allocFinish size (allocStepped ctx h)).colorOf h.nextAddr =
      some GcColor.Black
    rw [← haddr, Heap.colorOf, hmemself, hgp2]
    rfl
  · intro ops
    have hwff : WF (allocFinish size (allocStepped ctx h)) :=
      allocFinish_wf size _ hwfs
    refine survivesCycle_of_protected ctx h.nextAddr ops _ hwff ?_
    by_cases hph' : (allocFinish size (allocStepped ctx h)).phase = GcPhase.Idle
    · exact Or.inl hph'
    · right
      have hgp2 : (allocStepped ctx h).gcInProgress = true := decide_eq_true hph'
      refine ⟨_, by rw [← haddr]; exact hmemself, Or.inl ?_⟩
      rw [hgp2]
      intro hcon
      cases hcon

/-- Witness for C1 at a concrete heap: allocating on the heap whose
collection has just started (phase `Marking`) returns address 0, black,
and it survives three subsequent GC steps. -/
theorem c1_witness :
    cexStart.phase ≠ GcPhase.Idle ∧
    (cexStart.allocWithSize gcCtxEmpty true 16).2 = some cexStart.nextAddr ∧
    (cexStart.allocWithSize gcCtxEmpty true 16).1.colorOf cexStart.nextAddr =
      some GcColor.Black ∧
    SurvivesCycle gcCtxEmpty (cexStart.allocWithSize gcCtxEmpty true 16).1
      cexStart.nextAddr [Op.step, Op.step, Op.step] := by
  have hwf : WF cexStart := startGc_wf gcCtxEmpty Heap.new wf_new
  have hph : cexStart.phase ≠ GcPhase.Idle := by decide
  obtain ⟨h1, h2, h3⟩ :=
    c1_alloc_during_gc_black_and_survives gcCtxEmpty 16 cexStart hwf hph
  exact ⟨hph, h1, h2 (by decide), h3 [Op.step, Op.step, Op.step]⟩

/-- C2 (counterexample): after the collection cycle has finished (the
phase is back to `Idle`), the object at address 1 — allocated black
while the cycle was in its weak-ref-processing/sweeping portion — is
still on the all-objects list and is still black, not white. -/
theorem c2_black_survivor_counterexample :
    cexA3.1.phase = GcPhase.Idle ∧
      ChainIs cexA3.1.mem cexA3.1.allObjects [2, 1, 0] ∧
      cexA3.1.colorOf 1 = some GcColor.Black := by
  refine ⟨by decide, ?_, by decide⟩
  refine @ChainSeg.cons _ _ ⟨GcColor.White, 16, some 1⟩ _ _ (by decide) ?_
  refine @ChainSeg.cons _ _ ⟨GcColor.Black, 16, some 0⟩ _ _ (by decide) ?_
  refine @ChainSeg.cons _ _ ⟨GcColor.White, 16, none⟩ _ _ (by decide) ?_
  exact ChainSeg.nil _ _

/-- C2 (amended): for every collection cycle, if no allocation is made
from the weak-ref-processing step onward (the collection is driven to
completion by `gc_step` calls alone from any phase before the sweep
cursor is initialized), then once the phase has returned to `Idle`
every object still on the all-objects list is colored white.  (The
counterexample shows that an object allocated black during the
weak-ref-processing or sweeping portion of the cycle survives the cycle
still black.) -/
theorem c2_after_finish_all_white (ctx : GcContext) (h : Heap) (n : Nat)
    (hwf : WF h)
    (hph : h.phase = GcPhase.RootScanning ∨ h.phase = GcPhase.Marking ∨
      h.phase = GcPhase.WeakRefProcessing)
    (hdone : (stepN ctx n h).phase = GcPhase.Idle) :
    ∀ L, ChainIs (stepN ctx n h).mem (stepN ctx n h).allObjects L →
      ∀ j ∈ L, (stepN ctx n h).colorOf j = some GcColor.White := by
  have hinv : CycleWhiteInv h := by
    constructor
    · intro hsw
      rcases hph with h1 | h1 | h1 <;> rw [h1] at hsw <;> cases hsw
    · intro hid
      rcases hph with h1 | h1 | h1 <;> rw [h1] at hid <;> cases hid
  exact ((stepN_wf_inv ctx n h hwf hinv).2).2 hdone

/-- Witness for C2: two objects with the older one rooted; the cycle
completes in three steps and the surviving rooted object is white. -/
theorem c2_witness :
    heapRootedStarted.phase = GcPhase.Marking ∧
    (stepN gcCtxRoot0 3 heapRootedStarted).phase = GcPhase.Idle ∧
    (stepN gcCtxRoot0 3 heapRootedStarted).colorOf 0 = some GcColor.White := by
  have hwf0 : WF Heap.new := wf_new
  have hwf1 : WF ((Heap.new.allocWithSize gcCtxRoot0 true 16).1) :=
    exec_wf gcCtxRoot0 Heap.new (Op.alloc 16) hwf0
  have hwf2 : WF heapRooted :=
    exec_wf gcCtxRoot0 ((Heap.new.allocWithSize gcCtxRoot0 true 16).1)
      (Op.alloc 16) hwf1
  have hwf3 : WF heapRootedStarted := startGc_wf gcCtxRoot0 heapRooted hwf2
  have hdone : (stepN gcCtxRoot0 3 heapRootedStarted).phase = GcPhase.Idle := by
    decide
  have hall := c2_after_finish_all_white gcCtxRoot0 heapRootedStarted 3 hwf3
    (Or.inr (Or.inl (by decide))) hdone
  refine ⟨by decide, hdone, ?_⟩
  refine hall [0] ?_ 0 (List.mem_singleton_self 0)
  refine @ChainSeg.cons _ _ ⟨GcColor.White, 16, none⟩ _ _ (by decide) ?_
  exact ChainSeg.nil _ _

theorem chainBytes_cons (m : Mem) (i : Nat) (L : List Nat) (hd : GcHeader)
    (hm : m i = some hd) :
    chainBytes m (i :: L) = hd.totalSize + chainBytes m L := by
  simp only [chainBytes, List.map_cons, List.sum_cons, hm]

theorem chainBytes_congr (m m' : Mem) :
    ∀ L : List Nat, (∀ j ∈ L, m' j = m j) → chainBytes m' L = chainBytes m L := by
  intro L
  induction L with
  | nil => intro _; rfl
  | cons a L ih =>
    intro hagree
    have ha := hagree a (List.mem_cons_self a L)
    simp only [chainBytes, List.map_cons, List.sum_cons, ha]
    have ih' := ih (fun j hj => hagree j (List.mem_cons_of_mem a hj))
    simp only [chainBytes] at ih'
    rw [ih']

/-- C3: over any sequence of successful allocations with no collection
started (the heap is and stays `Idle`), at every point
`bytes_allocated` equals the sum of `total_size` (header size plus
recorded body size) over the objects on the all-objects list, and
`num_objects` equals that list's length. -/
theorem c3_allocation_accounting (ctx : GcContext) (sizes : List Nat) (h : Heap)
    (hwf : WF h) (hacc : Accounted h) (hidle : h.phase = GcPhase.Idle) :
    WF (allocRun ctx h sizes) ∧ Accounted (allocRun ctx h sizes) ∧
      (allocRun ctx h sizes).phase = GcPhase.Idle := by
  induction sizes generalizing h with
  | nil => exact ⟨hwf, hacc, hidle⟩
  | cons size sizes ih =>
    have hgp : h.gcInProgress = false := by
      unfold Heap.gcInProgress
      simp [hidle]
    have hstep : allocStepped ctx h = h := by
      unfold allocStepped
      rw [hgp]
      rfl
    have heq : (h.allocWithSize ctx true size).1 = allocFinish size h := by
      rw [allocWithSize_eq, hstep]
    have hwf1 : WF (allocFinish size h) := allocFinish_wf size h hwf
    have hacc1 : Accounted (allocFinish size h) := by
      intro L' hL'
      obtain ⟨L, hL, hnd⟩ := hwf.chain
      have hfreshL : ∀ j ∈ L, j ≠ h.nextAddr := by
        intro j hj he
        obtain ⟨hdj, hmj⟩ := chainSeg_mem_some hL hj
        have hlt := hwf.fresh j hdj hmj
        rw [he] at hlt
        exact Nat.lt_irrefl _ hlt
      have hmem_other : ∀ j, j ≠ h.nextAddr →
          (allocFinish size h).mem j = h.mem j := by
        intro j hj
        exact Mem.set_other h.mem h.nextAddr j _ hj
      have hmem_self : (allocFinish size h).mem h.nextAddr = some
          { color := if h.gcInProgress then GcColor.Black else GcColor.White
            allocSize := size
            next := h.allObjects } :=
        Mem.set_self h.mem h.nextAddr _
      have hchain1 : ChainIs (allocFinish size h).mem (some h.nextAddr)
          (h.nextAddr :: L) := by
        refine ChainSeg.cons hmem_self ?_
        show ChainSeg (allocFinish size h).mem h.allObjects L none
        refine chainSeg_of_next_agree ?_ hL
        intro j hj
        rw [hmem_other j (hfreshL j hj)]
      have hL'eq : L' = h.nextAddr :: L := chainIs_unique hL' hchain1
      obtain ⟨hbytes, hnum⟩ := hacc L hL
      rw [hL'eq]
      constructor
      · show h.bytesAllocated + (headerSize + size) = _
        rw [chainBytes_cons _ _ _ _ hmem_self]
        rw [chainBytes_congr h.mem (allocFinish size h).mem L
          (fun j hj => hmem_other j (hfreshL j hj))]
        rw [← hbytes]
        show _ = headerSize + size + h.bytesAllocated
        omega
      · show h.numObjects + 1 = L.length + 1
        rw [hnum]
    have hidle1 : (allocFinish size h).phase = GcPhase.Idle := hidle
    have hrun : allocRun ctx h (size :: sizes) =
        allocRun ctx (allocFinish size h) sizes := by
      show allocRun ctx (h.allocWithSize ctx true size).1 sizes = _
      rw [heq]
    rw [hrun]
    exact ih (allocFinish size h) hwf1 hacc1 hidle1

/-- Witness for C3: two allocations of sizes 16 and 8 on the fresh
heap keep the accounting invariant and the phase `Idle`. -/
theorem c3_witness :
    WF (allocRun gcCtxEmpty Heap.new [16, 8]) ∧
    Accounted (allocRun gcCtxEmpty Heap.new [16, 8]) ∧
    (allocRun gcCtxEmpty Heap.new [16, 8]).phase = GcPhase.Idle := by
  have hacc : Accounted Heap.new := by
    intro L hL
    cases hL
    exact ⟨rfl, rfl⟩
  exact c3_allocation_accounting gcCtxEmpty [16, 8] Heap.new wf_new hacc rfl

/-- C10: within one collection cycle every object header is pushed onto
the gray queue at most once: in every well-formed heap the gray queue
has no duplicates and holds only gray headers, and after any operation
every newly enqueued address was white (a white-to-gray transition)
before the operation. -/
theorem c10_gray_queue_once (h : Heap) (hwf : WF h) :
    (h.grayQueue.Nodup ∧
      ∀ i ∈ h.grayQueue, ∃ hd, h.mem i = some hd ∧ hd.color = GcColor.Gray) ∧
    ∀ (ctx : GcContext) (op : Op) (i : Nat),
      i ∈ (GcContext.exec ctx h op).grayQueue →
        i ∈ h.grayQueue ∨ ∃ hd, h.mem i = some hd ∧ hd.color = GcColor.White := by
  refine ⟨⟨hwf.grayNodup, hwf.grayMem⟩, ?_⟩
  intro ctx op i hi
  have hconv : h.colorOf i = some GcColor.White →
      ∃ hd, h.mem i = some hd ∧ hd.color = GcColor.White := by
    intro hc
    rw [Heap.colorOf] at hc
    cases hm : h.mem i with
    | none =>
      rw [hm] at hc
      cases hc
    | some hd =>
      rw [hm] at hc
      injection hc with hc
      exact ⟨hd, rfl, hc⟩
  cases op with
  | alloc size =>
    have hi' : i ∈ (allocStepped ctx h).grayQueue := hi
    unfold allocStepped at hi'
    by_cases hgp : h.gcInProgress
    · rw [if_pos hgp] at hi'
      rcases gcStep_queue_sub ctx h i hi' with hin | hw
      · exact Or.inl hin
      · exact Or.inr (hconv hw)
    · rw [if_neg hgp] at hi'
      exact Or.inl hi'
  | allocFail size =>
    have hi' : i ∈ (allocStepped ctx h).grayQueue := hi
    unfold allocStepped at hi'
    by_cases hgp : h.gcInProgress
    · rw [if_pos hgp] at hi'
      rcases gcStep_queue_sub ctx h i hi' with hin | hw
      · exact Or.inl hin
      · exact Or.inr (hconv hw)
    · rw [if_neg hgp] at hi'
      exact Or.inl hi'
  | step =>
    rcases gcStep_queue_sub ctx h i hi with hin | hw
    · exact Or.inl hin
    · exact Or.inr (hconv hw)
  | barrier t =>
    cases t with
    | none => exact Or.inl hi
    | some j =>
      have hi' : i ∈ (if h.isMarking then h.markGrayRaw j else h).grayQueue := hi
      by_cases him : h.isMarking
      · rw [if_pos him] at hi'
        rcases markGrayRaw_queue_sub h j i hi' with hin | hw
        · exact Or.inl hin
        · exact Or.inr (hconv hw)
      · rw [if_neg him] at hi'
        exact Or.inl hi'
  | start =>
    rcases startGc_queue_sub ctx h i hi with hin | hw
    · exact Or.inl hin
    · exact Or.inr (hconv hw)

/-- Witness for C10: on the started rooted-pair heap the queue is the
single gray root, and the write barrier's new enqueue (address 1) was
white before the operation. -/
theorem c10_witness :
    heapRootedStarted.grayQueue.Nodup ∧
    (∃ hd, heapRootedStarted.mem 0 = some hd ∧ hd.color = GcColor.Gray) ∧
    (1 ∈ heapRootedStarted.grayQueue ∨
      ∃ hd, heapRootedStarted.mem 1 = some hd ∧ hd.color = GcColor.White) := by
  have hwf0 : WF Heap.new := wf_new
  have hwf1 : WF ((Heap.new.allocWithSize gcCtxRoot0 true 16).1) :=
    exec_wf gcCtxRoot0 Heap.new (Op.alloc 16) hwf0
  have hwf2 : WF heapRooted :=
    exec_wf gcCtxRoot0 ((Heap.new.allocWithSize gcCtxRoot0 true 16).1)
      (Op.alloc 16) hwf1
  have hwf3 : WF heapRootedStarted := startGc_wf gcCtxRoot0 heapRooted hwf2
  obtain ⟨⟨hnd, hmem⟩, hsub⟩ := c10_gray_queue_once heapRootedStarted hwf3
  exact ⟨hnd, hmem 0 (by decide),
    hsub gcCtxRoot0 (Op.barrier (some 1)) 1 (by decide)⟩


theorem newRoot_eq_fresh (c : StackRootContext) (hfull : c.nextIdx = handleBlockSize)
    (hfree : c.free = []) :
    c.newRoot = { c with
      cur := c.freshBid :: c.cur
      nextIdx := 1
      freshBid := c.freshBid + 1 } := by
  unfold StackRootContext.newRoot StackRootContext.pushBlock
  rw [if_pos hfull, hfree]

theorem newRoot_eq_reuse (c : StackRootContext) (hfull : c.nextIdx = handleBlockSize)
    (f : Nat) (rest : List Nat) (hfree : c.free = f :: rest) :
    c.newRoot = { c with
      cur := f :: c.cur
      nextIdx := 1
      free := rest } := by
  unfold StackRootContext.newRoot StackRootContext.pushBlock
  rw [if_pos hfull, hfree]

theorem newRoot_eq_bump (c : StackRootContext) (hfull : c.nextIdx ≠ handleBlockSize) :
    c.newRoot = { c with nextIdx := c.nextIdx + 1 } := by
  unfold StackRootContext.newRoot
  rw [if_neg hfull]

theorem newRoot_pres (c0 c : StackRootContext) (hwf : SRWF c)
    (hdec : ∃ P, c.cur = P ++ c0.cur) :
    SRWF c.newRoot ∧ ∃ P, c.newRoot.cur = P ++ c0.cur := by
  obtain ⟨hne, hnd, hbound⟩ := hwf
  obtain ⟨P, hP⟩ := hdec
  by_cases hfull : c.nextIdx = handleBlockSize
  · cases hfree : c.free with
    | nil =>
      rw [newRoot_eq_fresh c hfull hfree]
      refine ⟨⟨?_, ?_, ?_⟩, c.freshBid :: P, ?_⟩
      · show c.freshBid :: c.cur ≠ []
        intro hcon
        cases hcon
      · show ((c.freshBid :: c.cur) ++ c.free).Nodup
        rw [hfree, List.append_nil]
        refine List.nodup_cons.mpr ⟨?_, ?_⟩
        · intro hin
          have hlt := hbound c.freshBid (List.mem_append_left c.free hin)
          exact Nat.lt_irrefl _ hlt
        · exact hnd.of_append_left
      · intro b hb
        show b < c.freshBid + 1
        have hb' : b ∈ (c.freshBid :: c.cur) ++ c.free := hb
        rw [hfree, List.append_nil] at hb'
        rcases List.mem_cons.mp hb' with rfl | hb2
        · exact Nat.lt_succ_self _
        · exact Nat.lt_succ_of_lt (hbound b (List.mem_append_left c.free hb2))
      · show c.freshBid :: c.cur = (c.freshBid :: P) ++ c0.cur
        rw [hP]
        rfl
    | cons f rest =>
      rw [newRoot_eq_reuse c hfull f rest hfree]
      refine ⟨⟨?_, ?_, ?_⟩, f :: P, ?_⟩
      · show f :: c.cur ≠ []
        intro hcon
        cases hcon
      · show ((f :: c.cur) ++ rest).Nodup
        have hperm : ((f :: c.cur) ++ rest).Perm (c.cur ++ (f :: rest)) := by
          show (f :: (c.cur ++ rest)).Perm (c.cur ++ (f :: rest))
          exact List.perm_middle.symm
        refine (hperm.symm).nodup ?_
        rw [← hfree]
        exact hnd
      · intro b hb
        show b < c.freshBid
        have hb' : b ∈ (f :: c.cur) ++ rest := hb
        rcases List.mem_append.mp hb' with hb2 | hb2
        · rcases List.mem_cons.mp hb2 with rfl | hb3
          · refine hbound b (List.mem_append_right c.cur ?_)
            rw [hfree]
            exact List.mem_cons_self b rest
          · exact hbound b (List.mem_append_left c.free hb3)
        · refine hbound b (List.mem_append_right c.cur ?_)
          rw [hfree]
          exact List.mem_cons_of_mem f hb2
      · show f :: c.cur = (f :: P) ++ c0.cur
        rw [hP]
        rfl
  · rw [newRoot_eq_bump c hfull]
    exact ⟨⟨hne, hnd, hbound⟩, P, hP⟩

theorem newRootsN_pres (c0 : StackRootContext) (hwf : SRWF c0) (n : Nat) :
    SRWF (newRootsN c0 n) ∧ ∃ P, (newRootsN c0 n).cur = P ++ c0.cur := by
  induction n with
  | zero => exact ⟨hwf, [], rfl⟩
  | succ n ih => exact newRoot_pres c0 (newRootsN c0 n) ih.1 ih.2

theorem popUntil_spec (savedEnd : Nat) :
    ∀ (P rest0 free : List Nat), P ≠ [] → savedEnd ∉ P →
      popUntil savedEnd (P ++ savedEnd :: rest0) free =
        (savedEnd :: rest0, P.reverse ++ free) := by
  intro P
  induction P with
  | nil =>
    intro rest0 free hP _
    exact absurd rfl hP
  | cons b P ih =>
    intro rest0 free _ hnotin
    have hbne : savedEnd ∉ P := fun hin => hnotin (List.mem_cons_of_mem b hin)
    cases hP : P with
    | nil =>
      subst hP
      show popUntil savedEnd (b :: savedEnd :: rest0) free = _
      unfold popUntil
      rw [if_pos rfl]
      rfl
    | cons b2 P2 =>
      have hb2 : b2 ≠ savedEnd := by
        intro hcon
        refine hnotin ?_
        rw [hP, hcon]
        exact List.mem_cons_of_mem b (List.mem_cons_self savedEnd P2)
      subst hP
      have hrec := ih rest0 (b :: free) (by intro hcon; cases hcon) hbne
      show popUntil savedEnd (b :: b2 :: (P2 ++ savedEnd :: rest0)) free =
        (savedEnd :: rest0, (b :: b2 :: P2).reverse ++ free)
      unfold popUntil
      rw [if_neg hb2]
      rw [show b2 :: (P2 ++ savedEnd :: rest0) = (b2 :: P2) ++ savedEnd :: rest0 from rfl]
      rw [hrec]
      simp [List.reverse_cons, List.append_assoc]

/-- C7: entering a stack-root scope snapshots `(next_ptr, end_ptr)` and
exiting restores exactly that snapshot after any number of root
allocations (including sequences that cross one or more block
boundaries): the block chain returns to its enter-time state, every
block pushed since entry is moved onto the free-block list, and no
block ends up on the free list (or anywhere) twice. -/
theorem c7_scope_exit_restores (c0 : StackRootContext) (n : Nat) (hwf : SRWF c0) :
    ((StackRootScope.enter c0).exitScope (newRootsN c0 n)).nextPtr = c0.nextPtr ∧
    ((StackRootScope.enter c0).exitScope (newRootsN c0 n)).endPtr = c0.endPtr ∧
    ((StackRootScope.enter c0).exitScope (newRootsN c0 n)).cur = c0.cur ∧
    (∃ P, (newRootsN c0 n).cur = P ++ c0.cur ∧
      ((StackRootScope.enter c0).exitScope (newRootsN c0 n)).free =
        P.reverse ++ (newRootsN c0 n).free) ∧
    (((StackRootScope.enter c0).exitScope (newRootsN c0 n)).cur ++
      ((StackRootScope.enter c0).exitScope (newRootsN c0 n)).free).Nodup := by
  obtain ⟨hwfn, P, hP⟩ := newRootsN_pres c0 hwf n
  obtain ⟨hneN, hndN, hboundN⟩ := hwfn
  obtain ⟨hne0, hnd0, hbound0⟩ := hwf
  obtain ⟨ch, crest, hc0⟩ : ∃ ch crest, c0.cur = ch :: crest := by
    cases hcc : c0.cur with
    | nil => exact absurd hcc hne0
    | cons a l => exact ⟨a, l, rfl⟩
  have hsEnd : (StackRootScope.enter c0).savedEnd = ch := by
    show c0.endPtr = ch
    unfold StackRootContext.endPtr StackRootContext.curBid
    rw [hc0]
    rfl
  have hsNext : (StackRootScope.enter c0).savedNext = (ch, c0.nextIdx) := by
    show c0.nextPtr = _
    unfold StackRootContext.nextPtr StackRootContext.curBid
    rw [hc0]
    rfl
  cases P with
  | nil =>
    have hcur : (newRootsN c0 n).cur = c0.cur := by
      rw [hP]
      rfl
    have hcond : (StackRootScope.enter c0).savedEnd = (newRootsN c0 n).endPtr := by
      rw [hsEnd]
      show ch = (newRootsN c0 n).curBid
      unfold StackRootContext.curBid
      rw [hcur, hc0]
      rfl
    have hexit : (StackRootScope.enter c0).exitScope (newRootsN c0 n) =
        { newRootsN c0 n with nextIdx := (StackRootScope.enter c0).savedNext.2 } := by
      unfold StackRootScope.exitScope
      rw [if_pos hcond]
    rw [hexit]
    refine ⟨?_, ?_, hcur, ⟨[], hP, by rfl⟩, ?_⟩
    · show (({ newRootsN c0 n with nextIdx := (StackRootScope.enter c0).savedNext.2 } : StackRootContext).curBid, (StackRootScope.enter c0).savedNext.2) = c0.nextPtr
      unfold StackRootContext.curBid StackRootContext.nextPtr StackRootContext.curBid
      rw [hsNext]
      show ((newRootsN c0 n).cur.headI, c0.nextIdx) = (c0.cur.headI, c0.nextIdx)
      rw [hcur]
    · simp [StackRootContext.endPtr, StackRootContext.curBid, hcur, hc0]
    · show ((newRootsN c0 n).cur ++ (newRootsN c0 n).free).Nodup
      exact hndN
  | cons b P' =>
    have hcurcons : (newRootsN c0 n).cur = (b :: P') ++ (ch :: crest) := by
      rw [hP, hc0]
    have hndcur : ((b :: P') ++ c0.cur).Nodup := by
      rw [← hP]
      exact hndN.of_append_left
    have hchP : ch ∉ b :: P' := by
      intro hin
      have hdisj := List.disjoint_of_nodup_append hndcur
      refine hdisj hin ?_
      rw [hc0]
      exact List.mem_cons_self ch crest
    have hcond : ¬((StackRootScope.enter c0).savedEnd = (newRootsN c0 n).endPtr) := by
      rw [hsEnd]
      show ¬(ch = (newRootsN c0 n).curBid)
      unfold StackRootContext.curBid
      rw [hcurcons]
      intro hcon
      refine hchP ?_
      rw [hcon]
      exact List.mem_cons_self b P'
    have hpop : popUntil (StackRootScope.enter c0).savedEnd (newRootsN c0 n).cur
        (newRootsN c0 n).free =
        (ch :: crest, (b :: P').reverse ++ (newRootsN c0 n).free) := by
      rw [hsEnd, hcurcons]
      exact popUntil_spec ch (b :: P') crest (newRootsN c0 n).free
        (by intro hcon; cases hcon) hchP
    have hexit : (StackRootScope.enter c0).exitScope (newRootsN c0 n) =
        { newRootsN c0 n with
          cur := ch :: crest
          free := (b :: P').reverse ++ (newRootsN c0 n).free
          nextIdx := (StackRootScope.enter c0).savedNext.2 } := by
      unfold StackRootScope.exitScope
      rw [if_neg hcond, hpop]
    rw [hexit]
    refine ⟨?_, ?_, by rw [hc0], ⟨b :: P', hP, by rfl⟩, ?_⟩
    · show ((ch :: crest).headI, (StackRootScope.enter c0).savedNext.2) = c0.nextPtr
      rw [hsNext]
      unfold StackRootContext.nextPtr StackRootContext.curBid
      rw [hc0]
    · simp [StackRootContext.endPtr, StackRootContext.curBid, hc0]
    · show ((ch :: crest) ++ ((b :: P').reverse ++ (newRootsN c0 n).free)).Nodup
      have hsrc : (((b :: P') ++ (ch :: crest)) ++ (newRootsN c0 n).free).Nodup := by
        rw [← hcurcons]
        exact hndN
      have hperm : ((ch :: crest) ++ ((b :: P').reverse ++ (newRootsN c0 n).free)).Perm
          (((b :: P') ++ (ch :: crest)) ++ (newRootsN c0 n).free) := by
        refine List.Perm.trans ?_ (List.Perm.append_right (newRootsN c0 n).free
          (@List.perm_append_comm _ (ch :: crest) (b :: P')))
        rw [← List.append_assoc]
        exact List.Perm.append_right _ (List.Perm.append_left (ch :: crest)
          (List.reverse_perm (b :: P')))
      exact hperm.symm.nodup hsrc

/-- Witness for C7: a fresh stack-root context, 600 cells allocated in
a scope (crossing the 512-cell block boundary), then scope exit. -/
theorem c7_witness :
    ((StackRootScope.enter StackRootContext.new).exitScope
        (newRootsN StackRootContext.new 600)).nextPtr =
      StackRootContext.new.nextPtr ∧
    ((StackRootScope.enter StackRootContext.new).exitScope
        (newRootsN StackRootContext.new 600)).endPtr =
      StackRootContext.new.endPtr ∧
    ((StackRootScope.enter StackRootContext.new).exitScope
        (newRootsN StackRootContext.new 600)).cur = StackRootContext.new.cur ∧
    (∃ P, (newRootsN StackRootContext.new 600).cur =
        P ++ StackRootContext.new.cur ∧
      ((StackRootScope.enter StackRootContext.new).exitScope
          (newRootsN StackRootContext.new 600)).free =
        P.reverse ++ (newRootsN StackRootContext.new 600).free) ∧
    (((StackRootScope.enter StackRootContext.new).exitScope
        (newRootsN StackRootContext.new 600)).cur ++
      ((StackRootScope.enter StackRootContext.new).exitScope
        (newRootsN StackRootContext.new 600)).free).Nodup :=
  c7_scope_exit_restores StackRootContext.new 600 (by unfold SRWF; decide)

end SO2JS
